import Mathlib

/-!
Verification of the transcript-to-SRT normalization pipeline of
`src/utils/srt_converter.py` (class `SRTConverter`).

The Python code is shallowly embedded over `List Char`.  Python strings are
`List Char` (wrapped into `String` at the outer API); `re` operations are
embedded as bespoke matcher functions realizing the leftmost-match,
greedy/lazy backtracking semantics of each concrete pattern used by the
source; exceptions (only `datetime.strptime` can raise inside the pipeline)
are modelled with `Except Unit`, absorbed at the top-level `convert_to_srt`
boundary exactly as the source's `try/except` does.

Modelling notes:
* `str.strip` / regex `\s` use the ASCII whitespace set
  (space, tab, newline, carriage return, vertical tab, form feed); the
  source only ever meets these.
* `str.isdigit` is modelled for ASCII digits (the guarded texts are
  timestamps and cue numbers, which are ASCII).
* `datetime.strptime(ts, "%H:%M:%S,%f")` is modelled on the exact
  `HH:MM:SS,mmm` 12-character shape, the only shape the pipeline feeds it:
  it fails (ValueError) iff hour > 23, minute > 59 or second > 59, and
  `strftime("%H:%M:%S,%f")[:-3]` renders the time of day (day carry from
  `timedelta` addition is discarded, i.e. hours wrap modulo 24).
-/

set_option maxRecDepth 8192

/-- ASCII whitespace, as matched by Python `str.strip()` and regex `\s`. -/
def isPySpace (c : Char) : Bool :=
  c = ' ' ∨ c = '\t' ∨ c = '\n' ∨ c = '\r' ∨ c = '\x0b' ∨ c = '\x0c'

/-- ASCII digit test (regex `\d`). -/
def isDigitC (c : Char) : Bool :=
  '0' ≤ c ∧ c ≤ '9'

/-- Python `str.strip()` on a character list. -/
def pyStripL (l : List Char) : List Char :=
  ((l.dropWhile isPySpace).reverse.dropWhile isPySpace).reverse

/-- Python `str.isdigit()`: non-empty and all digits. -/
def allDigits (l : List Char) : Bool :=
  !l.isEmpty && l.all isDigitC

/-- Python `str.split('\n')`: always returns (number of newlines + 1) parts. -/
def splitNl : List Char → List (List Char)
  | [] => [[]]
  | c :: r =>
    if c = '\n' then [] :: splitNl r
    else
      match splitNl r with
      | h :: t => (c :: h) :: t
      | [] => [[c]]

/-- Python `'\n'.join(...)`. -/
def joinNl : List (List Char) → List Char
  | [] => []
  | [x] => x
  | x :: y :: t => x ++ '\n' :: joinNl (y :: t)

/-- If `pat` is an initial run of `l`, return the remainder. -/
def dropStart? : List Char → List Char → Option (List Char)
  | [], l => some l
  | _ :: _, [] => none
  | p :: ps, c :: cs => if p = c then dropStart? ps cs else none

/-- Remainder after the first occurrence of `pat` in `l` (substring search). -/
def firstAfter (pat : List Char) : List Char → Option (List Char)
  | [] => dropStart? pat []
  | c :: r =>
    match dropStart? pat (c :: r) with
    | some rest => some rest
    | none => firstAfter pat r

/-- Does `pat` occur as a contiguous substring of `l`? -/
def hasSub (pat l : List Char) : Bool :=
  (firstAfter pat l).isSome

/-- Remainder after the last (rightmost) occurrence of `pat` in `l`. -/
def lastAfter (pat : List Char) : List Char → Option (List Char)
  | [] => dropStart? pat []
  | c :: r =>
    match lastAfter pat r with
    | some x => some x
    | none => dropStart? pat (c :: r)

/-- Index of the first occurrence of character `c`. -/
def idxOf? (c : Char) : List Char → Option Nat
  | [] => none
  | a :: r => if a = c then some 0 else (idxOf? c r).map (· + 1)

/-- Python slice `text[a:b]`. -/
def sliceL (l : List Char) (a b : Nat) : List Char :=
  (l.drop a).take (b - a)

/-- The canonical timestamp pattern `\d{2}:\d{2}:\d{2},\d{3}`
(`SRTConverter.timestamp_pattern`) matched at the head of the list:
returns the 12 matched characters and the remainder. -/
def tsAt : List Char → Option (List Char × List Char)
  | c0 :: c1 :: c2 :: c3 :: c4 :: c5 :: c6 :: c7 :: c8 :: c9 :: c10 :: c11 :: rest =>
    if isDigitC c0 ∧ isDigitC c1 ∧ c2 = ':' ∧ isDigitC c3 ∧ isDigitC c4 ∧ c5 = ':' ∧
       isDigitC c6 ∧ isDigitC c7 ∧ c8 = ',' ∧ isDigitC c9 ∧ isDigitC c10 ∧ isDigitC c11 then
      some ([c0, c1, c2, c3, c4, c5, c6, c7, c8, c9, c10, c11], rest)
    else none
  | _ => none

/-- The short timestamp pattern `\d{2}:\d{2},\d{3}`
(`SRTConverter.invalid_timestamp_pattern`) matched at the head. -/
def shortAt : List Char → Option (List Char × List Char)
  | c0 :: c1 :: c2 :: c3 :: c4 :: c5 :: c6 :: c7 :: c8 :: rest =>
    if isDigitC c0 ∧ isDigitC c1 ∧ c2 = ':' ∧ isDigitC c3 ∧ isDigitC c4 ∧ c5 = ',' ∧
       isDigitC c6 ∧ isDigitC c7 ∧ isDigitC c8 then
      some ([c0, c1, c2, c3, c4, c5, c6, c7, c8], rest)
    else none
  | _ => none

/-- Embeds `re.search(timestamp_pattern, l)`: leftmost canonical timestamp match,
returning the matched characters and the remainder after `match.end()`. -/
def searchTs : List Char → Option (List Char × List Char)
  | [] => none
  | c :: r =>
    match tsAt (c :: r) with
    | some (m, rest) => some (m, rest)
    | none => searchTs r

/-- Leftmost short-timestamp (`MM:SS,mmm`) match anywhere in the list. -/
def searchShort : List Char → Option (List Char × List Char)
  | [] => none
  | c :: r =>
    match shortAt (c :: r) with
    | some (m, rest) => some (m, rest)
    | none => searchShort r

/-- Truthiness of `re.search(invalid_timestamp_pattern, l)`. -/
def hasShort (l : List Char) : Bool :=
  (searchShort l).isSome

/-- Truthiness of `re.search(timestamp_pattern, l)`. -/
def hasTs (l : List Char) : Bool :=
  (searchTs l).isSome

/-- The range pattern `(\d{2}:\d{2}:\d{2},\d{3})\s*-->\s*(\d{2}:\d{2}:\d{2},\d{3})`
(`SRTConverter.timestamp_range_pattern`) matched at the head: both groups and
the remainder after the match.  The `\s*` parts are deterministic here since
`-->` and the timestamps start with non-whitespace characters. -/
def rangeAt (l : List Char) : Option (List Char × List Char × List Char) :=
  match tsAt l with
  | none => none
  | some (t1, r1) =>
    match dropStart? ['-', '-', '>'] (r1.dropWhile isPySpace) with
    | none => none
    | some r2 =>
      match tsAt (r2.dropWhile isPySpace) with
      | none => none
      | some (t2, r3) => some (t1, t2, r3)

/-- Offset of the leftmost range-pattern match (`re.search(...).start()`). -/
def searchRangeOff : List Char → Option Nat
  | [] => none
  | c :: r =>
    if (rangeAt (c :: r)).isSome then some 0
    else (searchRangeOff r).map (· + 1)

/-- Truthiness of `re.search(timestamp_range_pattern, l)`. -/
def hasRange (l : List Char) : Bool :=
  (searchRangeOff l).isSome

/-- Embeds `re.finditer(timestamp_range_pattern, text)`: all non-overlapping matches
scanning left to right, each as (group 1, group 2, end position in `text`).
`fuel` bounds the recursion; callers pass `length + 1` which always suffices. -/
def findRanges : Nat → List Char → Nat → List (List Char × List Char × Nat)
  | 0, _, _ => []
  | _ + 1, [], _ => []
  | fuel + 1, c :: r, pos =>
    match rangeAt (c :: r) with
    | some (t1, t2, rest) =>
      let epos := pos + ((c :: r).length - rest.length)
      (t1, t2, epos) :: findRanges fuel rest epos
    | none => findRanges fuel r (pos + 1)

/-- Embeds `re.sub(invalid_timestamp_pattern, lambda m: "00:" + m.group(1), text)`
(line 199-204): every leftmost, non-overlapping `MM:SS,mmm` match is replaced
by `00:MM:SS,mmm`; scanning resumes after the replaced text. -/
def fixTimestamps : Nat → List Char → List Char
  | 0, l => l
  | _ + 1, [] => []
  | fuel + 1, c :: r =>
    match shortAt (c :: r) with
    | some (m, rest) => '0' :: '0' :: ':' :: (m ++ fixTimestamps fuel rest)
    | none => c :: fixTimestamps fuel r

/-- Embeds `re.sub(timestamp_pattern, '', text)` (line 249, dead branch of
`_extract_real_subtitles`). -/
def removeTs : Nat → List Char → List Char
  | 0, l => l
  | _ + 1, [] => []
  | fuel + 1, c :: r =>
    match tsAt (c :: r) with
    | some (_, rest) => removeTs fuel rest
    | none => c :: removeTs fuel r

/-- Remove all occurrences of literal `pat`: `re.sub(pat, '', text)` for the
markdown fence literals. -/
def removeAllSub (pat : List Char) : Nat → List Char → List Char
  | 0, l => l
  | _ + 1, [] => []
  | fuel + 1, c :: r =>
    match dropStart? pat (c :: r) with
    | some rest => removeAllSub pat fuel rest
    | none => c :: removeAllSub pat fuel r

/-- Embeds `re.sub(r'\n{3,}', '\n\n', text)` (line 162): maximal runs of three or
more newlines collapse to exactly two. -/
def collapseNl : Nat → List Char → List Char
  | 0, l => l
  | _ + 1, [] => []
  | fuel + 1, c :: r =>
    match c :: r with
    | '\n' :: '\n' :: '\n' :: rest =>
      '\n' :: '\n' :: collapseNl fuel (rest.dropWhile (· = '\n'))
    | _ => c :: collapseNl fuel r

/-- Digit character for a value 0-9 (as produced by `%02d`-style padding). -/
def digitChar (d : Nat) : Char :=
  ['0', '1', '2', '3', '4', '5', '6', '7', '8', '9'].getD (d % 10) '0'

/-- Numeric value of a digit character. -/
def charVal (c : Char) : Nat :=
  c.toNat - 48

/-- Decimal numeral of a natural number, as Python `str(i)` renders it.
The inner recursion is fuelled by the number itself. -/
def natGo : Nat → Nat → List Char
  | 0, _ => []
  | f + 1, n =>
    if n < 10 then [digitChar n] else natGo f (n / 10) ++ [digitChar (n % 10)]

def natChars (n : Nat) : List Char :=
  natGo (n + 1) n

/-- Two-digit zero-padded rendering (strftime `%H`, `%M`, `%S`). -/
def pad2c (n : Nat) : List Char :=
  [digitChar (n / 10), digitChar (n % 10)]

/-- Three-digit rendering of the millisecond field
(strftime `%f` truncated by `[:-3]`). -/
def pad3c (n : Nat) : List Char :=
  [digitChar (n / 100), digitChar (n / 10 % 10), digitChar (n % 10)]

/-- Canonical rendering of a millisecond-of-day count as `HH:MM:SS,mmm`,
exactly what `strftime("%H:%M:%S,%f")[:-3]` produces for the corresponding
`datetime` value (the day component is not rendered, so hours are the time
of day, already reduced modulo 24). -/
def tsOfMs (ms : Nat) : List Char :=
  let u := ms % 86400000
  pad2c (u / 3600000) ++ ':' :: pad2c (u / 60000 % 60) ++ ':' ::
    pad2c (u / 1000 % 60) ++ ',' :: pad3c (u % 1000)

/-- Field values of an exact `HH:MM:SS,mmm` character list. -/
def tsFields (l : List Char) : Option (Nat × Nat × Nat × Nat) :=
  match l with
  | [c0, c1, c2, c3, c4, c5, c6, c7, c8, c9, c10, c11] =>
    if isDigitC c0 ∧ isDigitC c1 ∧ c2 = ':' ∧ isDigitC c3 ∧ isDigitC c4 ∧ c5 = ':' ∧
       isDigitC c6 ∧ isDigitC c7 ∧ c8 = ',' ∧ isDigitC c9 ∧ isDigitC c10 ∧ isDigitC c11 then
      some (charVal c0 * 10 + charVal c1, charVal c3 * 10 + charVal c4,
            charVal c6 * 10 + charVal c7,
            charVal c9 * 100 + charVal c10 * 10 + charVal c11)
    else none
  | _ => none

/-- Embeds `SRTConverter._add_seconds_to_timestamp` (lines 317-335):
`datetime.strptime(timestamp, "%H:%M:%S,%f")` raises ValueError unless
hour ≤ 23, minute ≤ 59 and second ≤ 59; `+ timedelta(seconds=n)` then
`strftime("%H:%M:%S,%f")[:-3]` renders the resulting time of day (the day
carry is dropped, so hours wrap modulo 24) with the millisecond field
carried through unchanged. -/
def addSecondsL (ts : List Char) (n : Nat) : Except Unit (List Char) :=
  match tsFields ts with
  | none => .error ()
  | some (h, mi, s, ms) =>
    if h ≤ 23 ∧ mi ≤ 59 ∧ s ≤ 59 then
      .ok (tsOfMs (((h * 3600 + mi * 60 + s + n) % 86400) * 1000 + ms))
    else .error ()

/-! ## `_clean_transcription_text` (lines 138-228) -/

/-- Embeds `^알겠습니다\..*자막을 제공해 드립니다\.` (MULTILINE): anchored at line
start; the greedy `.*` extends the match to the last occurrence of the
closing literal on the line; the match is replaced by the empty string. -/
def greet1 (line : List Char) : List Char :=
  match dropStart? "알겠습니다.".data line with
  | none => line
  | some r =>
    match lastAfter "자막을 제공해 드립니다.".data r with
    | some rest => rest
    | none => line

/-- Embeds `^생성된 자막이 마음에 드셨으면.*`: a line starting with the literal is
removed to end of line. -/
def greet2 (line : List Char) : List Char :=
  if (dropStart? "생성된 자막이 마음에 드셨으면".data line).isSome then [] else line

/-- Embeds `^이 동영상의 자막입니다\.`: the literal at line start is removed. -/
def greet3 (line : List Char) : List Char :=
  match dropStart? "이 동영상의 자막입니다.".data line with
  | some r => r
  | none => line

/-- Embeds `^한글 자막을 생성했습니다\.`: the literal at line start is removed. -/
def greet4 (line : List Char) : List Char :=
  match dropStart? "한글 자막을 생성했습니다.".data line with
  | some r => r
  | none => line

/-- Embeds `.*추가 요청.*사항이 있으시면.*`: a line containing the first literal
followed (at or after its end) by the second is removed entirely. -/
def greet5 (line : List Char) : List Char :=
  match firstAfter "추가 요청".data line with
  | some r => if hasSub "사항이 있으시면".data r then [] else line
  | none => line

/-- Embeds `.*수정이 필요하거나.*`: a line containing the literal is removed. -/
def greet6 (line : List Char) : List Char :=
  if hasSub "수정이 필요하거나".data line then [] else line

/-- The six `ai_greeting_patterns` substitutions (lines 153-155).  Every
pattern matches within a single line (`.` does not cross newlines and the
literals contain none), so the whole-text `re.sub` is the per-line
composition in pattern order. -/
def cleanGreetings (l : List Char) : List Char :=
  joinNl ((splitNl l).map (fun ln => greet6 (greet5 (greet4 (greet3 (greet2 (greet1 ln)))))))

/-- The `markdown_patterns` substitutions (lines 157-159): remove every
literal ```` ```srt ````, then every triple backtick, then `` `{1,3} ``
which removes every remaining backtick. -/
def cleanMarkdown (l : List Char) : List Char :=
  let l1 := removeAllSub "```srt".data (l.length + 1) l
  let l2 := removeAllSub "```".data (l1.length + 1) l1
  l2.filter (fun c => c.toNat != 96)

/-- One step of the line-normalization `while` loop (lines 166-194): digit-only
lines are dropped, range lines kept, a line directly before a range line is
dropped (treated as a cue number) while the range line is kept, remaining
non-empty lines are kept stripped. -/
def cleanLines : List (List Char) → List (List Char)
  | [] => []
  | [l] =>
    let s := pyStripL l
    if allDigits s then []
    else if hasRange s then [s]
    else if !s.isEmpty then [s]
    else []
  | l :: nxt :: rest =>
    let s := pyStripL l
    if allDigits s then cleanLines (nxt :: rest)
    else if hasRange s then s :: cleanLines (nxt :: rest)
    else if hasRange (pyStripL nxt) then pyStripL nxt :: cleanLines rest
    else if !s.isEmpty then s :: cleanLines (nxt :: rest)
    else cleanLines (nxt :: rest)

/-- Restructuring pass (lines 206-225): when the cleaned text contains a
canonical timestamp but no range, each line's first timestamp becomes a
`start --> start+10s` line with the text after the match on the next line;
other non-blank lines are kept stripped.  `_add_seconds_to_timestamp` may
raise here. -/
def restructureLine (line : List Char) : Except Unit (List (List Char)) :=
  match searchTs line with
  | some (m, after) => do
    let e ← addSecondsL m 10
    let content := pyStripL after
    pure (if content.isEmpty then [] else [m ++ ' ' :: '-' :: '-' :: '>' :: ' ' :: e, content])
  | none =>
    pure (if (pyStripL line).isEmpty then [] else [pyStripL line])

/-- The per-line results are appended into `structured_lines` in order and
joined with newlines (lines 209-225). -/
def restructureGo : List (List Char) → Except Unit (List (List Char))
  | [] => pure []
  | ln :: rest => do
    let parts ← restructureLine ln
    let rst ← restructureGo rest
    pure (parts ++ rst)

def restructure (l : List Char) : Except Unit (List Char) := do
  let parts ← restructureGo (splitNl l)
  pure (joinNl parts)

/-- Embeds `SRTConverter._clean_transcription_text` (lines 138-228). -/
def cleanL (l : List Char) : Except Unit (List Char) :=
  if l.isEmpty then .ok []
  else
    let t1 := cleanGreetings l
    let t2 := cleanMarkdown t1
    let t3 := collapseNl (t2.length + 1) t2
    let t4 := joinNl (cleanLines (splitNl (pyStripL t3)))
    let t5 := fixTimestamps (t4.length + 1) t4
    if hasTs t5 ∧ ¬ hasRange t5 then restructure t5 else .ok t5

/-! ## Parsing (`parse_transcription`, `_parse_srt_format`,
`_extract_real_subtitles`) -/

/-- A parsed cue: (start, end, text), all as character lists. -/
abbrev SegL := List Char × List Char × List Char

def defaultMsg : String := "자막을 생성할 수 없습니다. 다른 비디오를 시도해보세요."

def zeroTs : List Char := "00:00:00,000".data
def tenTs : List Char := "00:00:10,000".data

def defaultSeg : SegL := (zeroTs, tenTs, defaultMsg.data)

/-- The check `re.search(r'\d+\s*\n' + timestamp_range_pattern, text)`
(line 65) matched at the head of the list: one or more digits, then a
whitespace run whose last character is a newline (the only way `\s*\n` can
be followed by the digit starting the range), then a range match. -/
def srtHeadAt (l : List Char) : Bool :=
  let ds := l.takeWhile isDigitC
  if ds.isEmpty then false
  else
    let r1 := l.dropWhile isDigitC
    if (r1.takeWhile isPySpace).getLast? = some '\n' then
      (rangeAt (r1.dropWhile isPySpace)).isSome
    else false

/-- Truthiness of the line-65 search anywhere in the text. -/
def srtCheckB : List Char → Bool
  | [] => false
  | c :: r => srtHeadAt (c :: r) || srtCheckB r

/-- The suffix of `l` after its last newline, if `l` has one. -/
def afterLastNl : List Char → Option (List Char)
  | [] => none
  | c :: r =>
    match afterLastNl r with
    | some x => some x
    | none => if c = '\n' then some r else none

/-- The lookahead `(?=\n\d+\s*\n|$)` of the `_parse_srt_format` pattern
(line 271, compiled without MULTILINE): succeeds at end of text, just
before a final newline, or before a newline followed by digits followed by
a whitespace run containing a newline. -/
def srtLookAhead : List Char → Bool
  | [] => true
  | '\n' :: r =>
    (let ds := r.takeWhile isDigitC
     !ds.isEmpty && ((r.dropWhile isDigitC).takeWhile isPySpace).contains '\n')
    || r.isEmpty
  | _ => false

/-- The lazy `([\s\S]*?)` of that pattern: the shortest prefix whose end
position satisfies the lookahead (always defined: the end of text
satisfies it). -/
def lazyBody : List Char → List Char × List Char
  | [] => ([], [])
  | c :: r =>
    if srtLookAhead (c :: r) then ([], c :: r)
    else
      let (a, b) := lazyBody r
      (c :: a, b)

/-- One match of the `_parse_srt_format` pattern
`(\d+)\s*\n(ts)\s*-->\s*(ts)\s*\n([\s\S]*?)(?=\n\d+\s*\n|$)` attempted at
the head of the list: returns the four groups and the remainder after the
match (the lookahead is not consumed).  In `\s*\n` the greedy `\s*`
backtracks to the last newline of the maximal whitespace run; before a
digit that forces the run to end with the newline, before the lazy body it
leaves the run's characters after its last newline to the body. -/
def srtBlockAt (l : List Char) : Option (List Char × List Char × List Char × List Char × List Char) :=
  let ds := l.takeWhile isDigitC
  if ds.isEmpty then none
  else
    let r1 := l.dropWhile isDigitC
    if (r1.takeWhile isPySpace).getLast? = some '\n' then
      match tsAt (r1.dropWhile isPySpace) with
      | none => none
      | some (t1, r3) =>
        match dropStart? ['-', '-', '>'] (r3.dropWhile isPySpace) with
        | none => none
        | some r4 =>
          match tsAt (r4.dropWhile isPySpace) with
          | none => none
          | some (t2, r5) =>
            match afterLastNl (r5.takeWhile isPySpace) with
            | none => none
            | some wtail =>
              let (body, rest) := lazyBody (wtail ++ r5.dropWhile isPySpace)
              some (ds, t1, t2, body, rest)
    else none

/-- Embeds `re.finditer` of the `_parse_srt_format` pattern: leftmost
non-overlapping matches, scanning resuming after each match. -/
def findSrtBlocks : Nat → List Char → List (List Char × List Char × List Char × List Char)
  | 0, _ => []
  | _ + 1, [] => []
  | fuel + 1, c :: r =>
    match srtBlockAt (c :: r) with
    | some (ds, t1, t2, body, rest) => (ds, t1, t2, body) :: findSrtBlocks fuel rest
    | none => findSrtBlocks fuel r

/-- Embeds `SRTConverter._extract_real_subtitles` (lines 230-258).  The inner
timestamp-stripping branch (lines 245-249) is kept verbatim even though its
guard can never hold under the enclosing condition. -/
def extFilter : List SegL → List SegL
  | [] => []
  | (s, e, t) :: rest =>
    if !t.isEmpty && !allDigits t && !hasTs t then
      let t2 := if hasTs t then pyStripL (removeTs (t.length + 1) t) else t
      if !t2.isEmpty then (s, e, t2) :: extFilter rest else extFilter rest
    else extFilter rest

def extractRealL (segs : List SegL) : List SegL :=
  let c := extFilter segs
  if c.isEmpty then [defaultSeg] else c

/-- Alternative scan of `_parse_srt_format` (lines 288-305): for each range
match, the caption runs from the match end to the start of the next range
match, else to the next newline, else to the end of text. -/
def altScan (text : List Char) : List SegL :=
  (findRanges (text.length + 1) text 0).filterMap (fun (t1, t2, epos) =>
    let lineEnd :=
      match searchRangeOff (text.drop epos) with
      | some off => epos + off
      | none =>
        match idxOf? '\n' (text.drop epos) with
        | some j => epos + j
        | none => text.length
    let st := pyStripL (sliceL text epos lineEnd)
    if !st.isEmpty && !allDigits st && !hasTs st then some (t1, t2, st) else none)

/-- Embeds `SRTConverter._parse_srt_format` (lines 260-315). -/
def parseSrtFormatL (text : List Char) : List SegL :=
  let segs :=
    (findSrtBlocks (text.length + 1) text).filterMap (fun (_, t1, t2, body) =>
      let st := pyStripL body
      if !hasTs st && !st.isEmpty && !allDigits st then some (t1, t2, st) else none)
  let segs := if segs.isEmpty then altScan text else segs
  let segs := extractRealL segs
  if segs.isEmpty then [defaultSeg] else segs

/-- The single-timestamp accumulation loop (lines 88-114), carried state
(current_time, current_text); `rest = []` detects `i = len(lines) - 1`
where the flushed end time is `current + 10s` instead of the new line's
timestamp. -/
def tsLineLoop : Option (List Char) → List Char → List (List Char) → Except Unit (List SegL)
  | some ct, ctext, [] =>
    if !ctext.isEmpty then do
      let e ← addSecondsL ct 10
      pure [(ct, e, pyStripL ctext)]
    else pure []
  | none, _, [] => pure []
  | ct?, ctext, ln :: rest =>
    match searchTs ln with
    | some (m, after) => do
      let flushed ←
        match ct? with
        | some ct =>
          if !ctext.isEmpty then
            if !rest.isEmpty then pure [(ct, m, pyStripL ctext)]
            else do
              let e ← addSecondsL ct 10
              pure [(ct, e, pyStripL ctext)]
          else pure ([] : List SegL)
        | none => pure ([] : List SegL)
      let rst ← tsLineLoop (some m) (pyStripL after) rest
      pure (flushed ++ rst)
    | none =>
      match ct? with
      | some _ => tsLineLoop ct? (ctext ++ ' ' :: pyStripL ln) rest
      | none => tsLineLoop ct? ctext rest

/-- The no-timestamp fallback loop (lines 120-126). -/
def fallbackBuild (cur : List Char) : List (List Char) → Except Unit (List SegL)
  | [] => pure []
  | ln :: ls => do
    let e ← addSecondsL cur 10
    let rest ← fallbackBuild e ls
    pure ((cur, e, ln) :: rest)

/-- Embeds `SRTConverter.parse_transcription` (lines 44-136). -/
def parseTranscriptionL (raw : List Char) : Except Unit (List SegL) := do
  let text ← cleanL raw
  if text.isEmpty || (pyStripL text).isEmpty then pure [defaultSeg]
  else if srtCheckB text then pure (parseSrtFormatL text)
  else do
    let rs := findRanges (text.length + 1) text 0
    let segs ←
      if !rs.isEmpty then
        pure (rs.filterMap (fun (t1, t2, epos) =>
          let lineEnd :=
            match idxOf? '\n' (text.drop epos) with
            | some j => epos + j
            | none => text.length
          let st := pyStripL (sliceL text epos lineEnd)
          if !allDigits st && !st.isEmpty then some (t1, t2, st) else none))
      else tsLineLoop none [] (splitNl (pyStripL text))
    let segs2 ←
      if segs.isEmpty && !(pyStripL text).isEmpty then do
        let ls := ((splitNl (pyStripL text)).map pyStripL).filter (fun x => !x.isEmpty)
        let built ← fallbackBuild zeroTs ls
        pure (if built.isEmpty then [(zeroTs, tenTs, pyStripL text)] else built)
      else pure segs
    pure (if segs2.isEmpty then [defaultSeg] else segs2)

/-! ## Rendering and the conversion boundary (`convert_to_srt`) -/

/-- One SRT block as `convert_to_srt` renders it (lines 358-361):
`f"{i}\n{start} --> {end}\n{text}\n\n"`. -/
def blockChars (i : Nat) (sg : SegL) : List Char :=
  natChars i ++ '\n' :: sg.1 ++ ' ' :: '-' :: '-' :: '>' :: ' ' :: sg.2.1 ++
    '\n' :: sg.2.2 ++ ['\n', '\n']

/-- The rendering loop of `convert_to_srt`: `enumerate(cleaned_segments, 1)`
with string accumulation `srt_content += ...`. -/
def renderL (cs : List SegL) : List Char :=
  (cs.enumFrom 1).foldl (fun acc (i, sg) => acc ++ blockChars i sg) []

def errSrt : String := "1\n00:00:00,000 --> 00:00:10,000\n자막 변환 중 오류가 발생했습니다.\n\n"

def defaultSrt : String :=
  "1\n00:00:00,000 --> 00:00:10,000\n자막을 생성할 수 없습니다. 다른 비디오를 시도해보세요.\n\n"

/-- Embeds `SRTConverter.convert_to_srt` (lines 337-373): parse, sanitize, render;
any internal exception is absorbed into the fixed conversion-error SRT. -/
def convert_to_srt (raw : String) : String :=
  match parseTranscriptionL raw.data with
  | .error _ => errSrt
  | .ok segs =>
    let cs := extractRealL segs
    let out := renderL cs
    if out.isEmpty then defaultSrt else String.mk out

/-- Embeds `SRTConverter.save_srt_file` (lines 375-403), with the file-system write
abstracted into a boolean oracle `writeFails`: empty content is replaced by
the default one-cue SRT before writing; on success the given path and the
written content are returned, on any failure an IOError is raised. -/
def save_srt_file (writeFails : Bool) (content outputPath : String) :
    Except String (String × String) :=
  let c := if content = "" then defaultSrt else content
  if writeFails then .error "SRT 파일 저장 중 오류 발생" else .ok (outputPath, c)

/-! ## Specification-side definitions: the canonical SRT block grammar,
the block shape described by the spec, and timestamp value semantics. -/

/-- A character list is exactly one canonical `HH:MM:SS,mmm` timestamp
(12 characters). -/
def canonTs (l : List Char) : Bool :=
  match tsAt l with
  | some (_, []) => true
  | _ => false

/-- Split at the first newline, requiring one to exist. -/
def takeUntilNl? : List Char → Option (List Char × List Char)
  | [] => none
  | c :: r =>
    if c = '\n' then some ([], r)
    else (takeUntilNl? r).map (fun p => (c :: p.1, p.2))

/-- Split at the first blank line (two consecutive newlines), requiring one
to exist. -/
def splitNlNl? : List Char → Option (List Char × List Char)
  | [] => none
  | [_] => none
  | c :: d :: r =>
    if c = '\n' ∧ d = '\n' then some ([], r)
    else (splitNlNl? (d :: r)).map (fun p => (c :: p.1, p.2))

/-- No two consecutive newlines occur in the list. -/
def noNl2 : List Char → Bool
  | [] => true
  | [_] => true
  | c :: d :: r => !(c = '\n' ∧ d = '\n') && noNl2 (d :: r)

/-- Well-shapedness of a parsed cue needed for the output grammar: canonical
start and end timestamps, and caption text that is stripped and free of
blank lines. -/
def GoodSeg (sg : SegL) : Prop :=
  canonTs sg.1 = true ∧ canonTs sg.2.1 = true ∧
    noNl2 sg.2.2 = true ∧ pyStripL sg.2.2 = sg.2.2

/-- The cue layout described by claim C9: cues pair up with the non-blank
lines in order, the first cue starts at the given time, and every
subsequent cue starts where the previous one ends. -/
def chainedFrom : List Char → List SegL → List (List Char) → Prop
  | _, [], [] => True
  | cur, (s, e, t) :: segs, ln :: lns => s = cur ∧ t = ln ∧ chainedFrom e segs lns
  | _, _, _ => False

/-- The cue layout claim C9 describes, as a closed form: the cue at
0-based position `k` occupies the 10-second slot starting at `10000·k`
milliseconds, pairs with the `k`-th non-blank line, and each cue's end
is the next cue's start. -/
def tenChain (k : Nat) : List (List Char) → List SegL
  | [] => []
  | ln :: lns => (tsOfMs (10000 * k), tsOfMs (10000 * (k + 1)), ln) :: tenChain (k + 1) lns

/-- Parse one canonical SRT block numbered `k`: the decimal numeral of `k`
on its own line, a `HH:MM:SS,mmm --> HH:MM:SS,mmm` line with the separator
exactly space-arrow-arrow-space, one or more non-empty caption lines, and
exactly one terminating blank line.  Returns the remainder after the block. -/
def blockAt (k : Nat) (l : List Char) : Option (List Char) :=
  match takeUntilNl? l with
  | none => none
  | some (idx, r1) =>
    if idx = natChars k then
      match tsAt r1 with
      | none => none
      | some (_, r2) =>
        match dropStart? [' ', '-', '-', '>', ' '] r2 with
        | none => none
        | some r3 =>
          match tsAt r3 with
          | none => none
          | some (_, r4) =>
            match r4 with
            | c :: r5 =>
              if c = '\n' then
                match splitNlNl? r5 with
                | none => none
                | some (capt, rest) =>
                  if capt.isEmpty then none
                  else if capt.head? = some '\n' then none
                  else some rest
              else none
            | [] => none
    else none

/-- Check a sequence of canonical blocks numbered `k`, `k+1`, ... covering
the whole remaining text. -/
def checkSRTGo : Nat → Nat → List Char → Bool
  | 0, _, _ => false
  | fuel + 1, k, l =>
    match blockAt k l with
    | none => false
    | some [] => true
    | some rest => checkSRTGo fuel (k + 1) rest

/-- The canonical SRT block grammar of spec section 6: non-empty text made
of blocks numbered exactly 1..K. -/
def checkSRT (s : String) : Bool :=
  !s.data.isEmpty && checkSRTGo (s.data.length + 1) 1 s.data

/-- The block sequence the spec's renderer contract describes: for cues
`cs` in original order, the `k`-th block is the index line `k`, the
`start --> end` line, the caption text, and one blank line, with indices
`k, k+1, ...` and no reordering or deduplication. -/
def specBlocks (k : Nat) : List SegL → List Char
  | [] => []
  | sg :: rest => blockChars k sg ++ specBlocks (k + 1) rest

/-- Elapsed milliseconds represented by a canonical timestamp. -/
def tsToMs (l : List Char) : Option Nat :=
  (tsFields l).map (fun f => f.1 * 3600000 + f.2.1 * 60000 + f.2.2.1 * 1000 + f.2.2.2)

/-! ## Claim theorems -/

/-- C2 (code bug): the malformed-timestamp repair `re.sub` of
`_clean_transcription_text` (line 204) does not leave canonical
`HH:MM:SS,mmm` timestamps unchanged: its pattern has no boundary guard, so
it matches the trailing `MM:SS,mmm` inside every canonical timestamp and
rewrites `00:00:01,000` to `00:00:00:01,000`; moreover short timestamps do
survive the repair, since the replacement text is not rescanned:
repairing `00:02,000` yields `00:00:02,000`, which still contains the
short shape `00:02,000`. -/
theorem c2_repair_corrupts_canonical :
    fixTimestamps 13 "00:00:01,000".data = "00:00:00:01,000".data ∧
    fixTimestamps 10 "00:02,000".data = "00:00:02,000".data ∧
    hasShort (fixTimestamps 10 "00:02,000".data) = true := by
  decide

/-- C3 (code bug): in `_extract_real_subtitles` a cue whose text contains an
embedded timestamp is dropped outright — the outer guard (line 244) already
excludes any text containing a timestamp, so the strip-and-retest branch
(lines 245-252) is unreachable.  On the singleton input whose text is
`"00:00:05,000 Hello"` the code discards the cue and falls back to the
sentinel, although stripping the timestamp would have left the non-empty
text `"Hello"` which the claim says must be kept. -/
theorem c3_timestamp_cue_dropped_outright :
    extractRealL [(zeroTs, tenTs, "00:00:05,000 Hello".data)] = [defaultSeg] ∧
    pyStripL (removeTs 19 "00:00:05,000 Hello".data) = "Hello".data := by
  decide

/-- C4 (code bug): the pipeline is not a fixed point on its own well-formed
output.  On the already-valid two-block SRT input of Scenario A the repair
regex corrupts both range lines, the well-formed-SRT and range strategies
then fail, and the no-timestamp fallback renumbers the surviving caption
lines at 10-second intervals: the output cues are
`00:00:20,000 --> 00:00:30,000 / Hello there` and
`00:00:50,000 --> 00:01:00,000 / Goodbye` instead of the input's own cues. -/
theorem c4_roundtrip_not_fixed_point :
    convert_to_srt
        "1\n00:00:01,000 --> 00:00:05,000\nHello there\n\n2\n00:00:06,000 --> 00:00:10,000\nGoodbye\n\n" =
      "1\n00:00:20,000 --> 00:00:30,000\nHello there\n\n2\n00:00:50,000 --> 00:01:00,000\nGoodbye\n\n" := by
  decide

/-- C6 (code bug): Scenario B `"00:00:02,000 Hello\n00:00:12,000 World\n"`
does not produce the claimed cues `(00:00:02,000, 00:00:12,000, Hello)` and
`(00:00:12,000, 00:00:22,000, World)`.  The cleaning stage itself rewrites
single-timestamp lines into range lines with the caption on the following
line (so the single-timestamp branch of `parse_transcription` never sees
them), the range branch then finds only empty same-line captions, and the
no-timestamp fallback assigns fresh 10-second slots: the code returns
`(00:00:10,000, 00:00:20,000, Hello)` and
`(00:00:30,000, 00:00:40,000, World)`. -/
theorem c6_scenario_b_behavior :
    convert_to_srt "00:00:02,000 Hello\n00:00:12,000 World\n" =
      "1\n00:00:10,000 --> 00:00:20,000\nHello\n\n2\n00:00:30,000 --> 00:00:40,000\nWorld\n\n" := by
  decide

/-- C7 (code bug): `_clean_transcription_text` is not idempotent.  Cleaning
`"00:02,000 hi"` produces `"00:00:02,000 --> 00:00:12,000\nhi"`; cleaning
that output again corrupts its own range line through the boundary-less
repair regex and restructures, producing
`"00:00:02,000 --> 00:00:12,000\n--> 00:00:00:12,000\nhi"`, a different
text. -/
theorem c7_clean_not_idempotent :
    (cleanL "00:02,000 hi".data).toOption =
      some "00:00:02,000 --> 00:00:12,000\nhi".data ∧
    (cleanL "00:00:02,000 --> 00:00:12,000\nhi".data).toOption =
      some "00:00:02,000 --> 00:00:12,000\n--> 00:00:00:12,000\nhi".data ∧
    "00:00:02,000 --> 00:00:12,000\n--> 00:00:00:12,000\nhi".data ≠
      "00:00:02,000 --> 00:00:12,000\nhi".data := by
  decide

/-- C10 (confirmed): `save_srt_file` never writes an empty file — empty
content is replaced by the default one-cue SRT before the write; on success
it returns exactly the path it was given, and on any write failure it
raises an IOError instead of returning. -/
theorem c10_save_srt_file (content p : String) :
    save_srt_file false "" p = .ok (p, defaultSrt) ∧
    defaultSrt ≠ "" ∧
    save_srt_file false content p = .ok (p, if content = "" then defaultSrt else content) ∧
    (save_srt_file true content p).isOk = false := by
  refine ⟨rfl, by decide, rfl, rfl⟩

/-! ## Timestamp arithmetic lemmas (C8) -/

theorem digitChar_isDigit (x : Nat) : isDigitC (digitChar x) = true := by
  unfold digitChar
  have h : x % 10 < 10 := Nat.mod_lt _ (by norm_num)
  set e := x % 10 with he
  interval_cases e <;> decide

theorem charVal_digitChar (x : Nat) : charVal (digitChar x) = x % 10 := by
  unfold digitChar
  have h : x % 10 < 10 := Nat.mod_lt _ (by norm_num)
  set e := x % 10 with he
  interval_cases e <;> decide

theorem tsOfMs_explicit (m : Nat) :
    tsOfMs m = [digitChar (m % 86400000 / 3600000 / 10), digitChar (m % 86400000 / 3600000 % 10),
      ':', digitChar (m % 86400000 / 60000 % 60 / 10), digitChar (m % 86400000 / 60000 % 60 % 10),
      ':', digitChar (m % 86400000 / 1000 % 60 / 10), digitChar (m % 86400000 / 1000 % 60 % 10),
      ',', digitChar (m % 86400000 % 1000 / 100), digitChar (m % 86400000 % 1000 / 10 % 10),
      digitChar (m % 86400000 % 1000 % 10)] := by
  simp [tsOfMs, pad2c, pad3c]

theorem canonTs_tsOfMs (m : Nat) : canonTs (tsOfMs m) = true := by
  rw [tsOfMs_explicit]
  simp [canonTs, tsAt, digitChar_isDigit]

theorem tsToMs_tsOfMs (m : Nat) : tsToMs (tsOfMs m) = some (m % 86400000) := by
  rw [tsOfMs_explicit]
  simp only [tsToMs, tsFields, digitChar_isDigit, Option.map_some]
  rw [if_pos]
  · simp only [Option.map, charVal_digitChar, Option.some.injEq]
    omega
  · simp [digitChar_isDigit]

/-- C8 counterexample: timestamp addition is not exact with unbounded
hours.  Adding 10 seconds to `23:59:55,000` (86395000 ms elapsed) yields
`00:00:05,000` (5000 ms elapsed), not a timestamp worth 86405000 ms: the
`datetime`-based arithmetic drops the day carry, wrapping hours at 24. -/
theorem c8_add_seconds_wraps :
    (addSecondsL "23:59:55,000".data 10).toOption = some "00:00:05,000".data ∧
    tsToMs "23:59:55,000".data = some 86395000 ∧
    tsToMs "00:00:05,000".data = some 5000 ∧
    (5000 : Nat) ≠ 86395000 + 10 * 1000 := by
  refine ⟨by decide, by decide, by decide, by decide⟩

/-- C8 amended: for every timestamp whose fields parse with hour ≤ 23,
minute ≤ 59 and second ≤ 59 (other inputs raise ValueError inside
`strptime`) and every natural `n`, `_add_seconds_to_timestamp` returns a
canonical 12-character timestamp representing the input's elapsed time plus
`n` seconds reduced modulo 24 hours — millisecond-preserving addition with
carry into minutes and hours, but with the day carry discarded. -/
theorem c8_add_seconds_mod24 (ts : List Char) (n hh mi ss ms : Nat)
    (hf : tsFields ts = some (hh, mi, ss, ms))
    (h1 : hh ≤ 23) (h2 : mi ≤ 59) (h3 : ss ≤ 59) :
    ∃ r, addSecondsL ts n = .ok r ∧ canonTs r = true ∧
      tsToMs r = some ((hh * 3600000 + mi * 60000 + ss * 1000 + ms + 1000 * n) % 86400000) := by
  refine ⟨tsOfMs (((hh * 3600 + mi * 60 + ss + n) % 86400) * 1000 + ms), ?_, canonTs_tsOfMs _, ?_⟩
  · simp [addSecondsL, hf, h1, h2, h3]
  · rw [tsToMs_tsOfMs]
    congr 1
    omega

/-- Witness for the C8 amended theorem at `01:02:03,004` plus 5 seconds. -/
theorem c8_add_seconds_mod24_witness :
    ∃ r, addSecondsL "01:02:03,004".data 5 = .ok r ∧ canonTs r = true ∧
      tsToMs r = some ((1 * 3600000 + 2 * 60000 + 3 * 1000 + 4 + 1000 * 5) % 86400000) :=
  c8_add_seconds_mod24 "01:02:03,004".data 5 1 2 3 4 (by rfl) (by decide) (by decide) (by decide)

/-! ## Structural lemmas about the matchers -/

theorem isDigit_ne_nl {c : Char} (h : isDigitC c = true) : c ≠ '\n' := by
  intro he
  subst he
  exact absurd h (by decide)

theorem tsAt_eq {l m r : List Char} (h : tsAt l = some (m, r)) :
    l = m ++ r ∧ m.length = 12 ∧ canonTs m = true ∧ ∀ c ∈ m, c ≠ '\n' := by
  unfold tsAt at h
  split at h
  · rename_i c0 c1 c2 c3 c4 c5 c6 c7 c8 c9 c10 c11 rest
    split at h
    · rename_i hc
      obtain ⟨h1, h2, h3, h4, h5, h6, h7, h8, h9, h10, h11, h12⟩ := hc
      obtain ⟨hm, hr⟩ := Prod.mk.injEq .. ▸ Option.some.injEq .. ▸ h
      subst hm
      subst hr
      refine ⟨rfl, rfl, ?_, ?_⟩
      · simp [canonTs, tsAt, h1, h2, h3, h4, h5, h6, h7, h8, h9, h10, h11, h12]
      · intro c hc
        simp only [List.mem_cons, List.not_mem_nil, or_false] at hc
        rcases hc with rfl | rfl | rfl | rfl | rfl | rfl | rfl | rfl | rfl | rfl | rfl | rfl <;>
          first
          | exact isDigit_ne_nl (by assumption)
          | (intro hne; simp_all)
    · exact absurd h (by simp)
  · exact absurd h (by simp)

theorem canonTs_len {s : List Char} (h : canonTs s = true) : s.length = 12 := by
  unfold canonTs at h
  split at h
  · rename_i m hm
    obtain ⟨he, hl, _, _⟩ := tsAt_eq hm
    simpa [he] using hl
  · exact absurd h (by simp)

/-! ## C5: the renderer emits exactly the claimed block sequence -/

theorem renderL_go (cs : List SegL) (k : Nat) (acc : List Char) :
    (cs.enumFrom k).foldl (fun acc p => acc ++ blockChars p.1 p.2) acc =
      acc ++ specBlocks k cs := by
  induction cs generalizing k acc with
  | nil => simp [specBlocks]
  | cons sg rest ih => simp [List.enumFrom, specBlocks, ih, List.append_assoc]

theorem renderL_spec (cs : List SegL) : renderL cs = specBlocks 1 cs := by
  simpa using renderL_go cs 1 []

theorem extFilter_subset (segs : List SegL) : ∀ sg ∈ extFilter segs, sg ∈ segs := by
  induction segs with
  | nil => simp [extFilter]
  | cons a rest ih =>
    obtain ⟨s, e, t⟩ := a
    intro sg hsg
    simp only [extFilter] at hsg
    split at hsg
    · rename_i hg
      have hts : hasTs t = false := by
        simp only [Bool.and_eq_true, Bool.not_eq_true'] at hg
        exact hg.2
      rw [hts] at hsg
      simp only [Bool.false_eq_true, if_false] at hsg
      split at hsg
      · rcases List.mem_cons.mp hsg with rfl | hmem
        · exact List.mem_cons_self ..
        · exact List.mem_cons_of_mem _ (ih _ hmem)
      · exact List.mem_cons_of_mem _ (ih _ hsg)
    · exact List.mem_cons_of_mem _ (ih _ hsg)

theorem extractRealL_mem (segs : List SegL) :
    ∀ sg ∈ extractRealL segs, sg ∈ segs ∨ sg = defaultSeg := by
  intro sg hsg
  unfold extractRealL at hsg
  dsimp only at hsg
  split at hsg
  · right
    simpa using hsg
  · exact Or.inl (extFilter_subset _ _ hsg)

/-- C5 (confirmed): for every sequence of surviving cues (the output of
`_extract_real_subtitles` on segments whose timestamps are canonical), the
renderer emits exactly the concatenation, in original order with no
reordering or deduplication, of blocks consisting of the 1-based sequential
index line (indices exactly 1..K), the `start --> end` line with separator
exactly space-arrow-arrow-space, the caption text, and exactly one
terminating blank line; every emitted timestamp is exactly 12 characters. -/
theorem c5_render_blocks (segs : List SegL)
    (h : ∀ sg ∈ segs, canonTs sg.1 = true ∧ canonTs sg.2.1 = true) :
    renderL (extractRealL segs) = specBlocks 1 (extractRealL segs) ∧
    ∀ sg ∈ extractRealL segs, sg.1.length = 12 ∧ sg.2.1.length = 12 := by
  refine ⟨renderL_spec _, ?_⟩
  intro sg hsg
  rcases extractRealL_mem _ _ hsg with hm | he
  · obtain ⟨h1, h2⟩ := h sg hm
    exact ⟨canonTs_len h1, canonTs_len h2⟩
  · subst he
    exact ⟨by decide, by decide⟩

/-- Witness for C5 on a concrete two-cue input. -/
theorem c5_render_blocks_witness :
    renderL (extractRealL
        [("00:00:01,000".data, "00:00:02,500".data, "Hi".data),
         ("00:00:03,000".data, "00:00:04,000".data, "there".data)]) =
      specBlocks 1 (extractRealL
        [("00:00:01,000".data, "00:00:02,500".data, "Hi".data),
         ("00:00:03,000".data, "00:00:04,000".data, "there".data)]) ∧
    ∀ sg ∈ extractRealL
        [("00:00:01,000".data, "00:00:02,500".data, "Hi".data),
         ("00:00:03,000".data, "00:00:04,000".data, "there".data)],
      sg.1.length = 12 ∧ sg.2.1.length = 12 :=
  c5_render_blocks _ (by decide)

/-! ## Monotonicity of the timestamp search (toolkit for C9 and C1) -/

theorem hasTs_cons (c : Char) (r : List Char) :
    hasTs (c :: r) = ((tsAt (c :: r)).isSome || hasTs r) := by
  unfold hasTs
  rw [show searchTs (c :: r) = (match tsAt (c :: r) with
    | some (m, rest) => some (m, rest)
    | none => searchTs r) from rfl]
  cases h : tsAt (c :: r) with
  | none => simp
  | some p =>
    obtain ⟨m, rest⟩ := p
    simp

theorem tsAt_append {l m r : List Char} (b : List Char) (h : tsAt l = some (m, r)) :
    tsAt (l ++ b) = some (m, r ++ b) := by
  unfold tsAt at h ⊢
  split at h
  · rename_i c0 c1 c2 c3 c4 c5 c6 c7 c8 c9 c10 c11 rest
    split at h
    · rename_i hc
      obtain ⟨hm, hr⟩ := Prod.mk.injEq .. ▸ Option.some.injEq .. ▸ h
      subst hm
      subst hr
      simp [hc]
    · exact absurd h (by simp)
  · exact absurd h (by simp)

theorem hasTs_append_right {l : List Char} (b : List Char) (h : hasTs l = true) :
    hasTs (l ++ b) = true := by
  induction l with
  | nil => simp [hasTs, searchTs] at h
  | cons c r ih =>
    rw [hasTs_cons] at h
    rcases Bool.or_eq_true .. |>.mp h with h1 | h2
    · rw [Option.isSome_iff_exists] at h1
      obtain ⟨⟨m, rest⟩, hm⟩ := h1
      rw [List.cons_append, hasTs_cons]
      rw [show c :: (r ++ b) = (c :: r) ++ b from rfl, tsAt_append b hm]
      simp
    · rw [List.cons_append, hasTs_cons, ih h2]
      simp

theorem hasTs_append_left {s : List Char} (a : List Char) (h : hasTs s = true) :
    hasTs (a ++ s) = true := by
  induction a with
  | nil => simpa using h
  | cons c r ih =>
    rw [List.cons_append, hasTs_cons, ih]
    simp

theorem hasTs_infix {s l : List Char} (hinf : s <:+: l) (h : hasTs l = false) :
    hasTs s = false := by
  obtain ⟨a, b, hab⟩ := hinf
  by_contra hne
  have hs : hasTs s = true := by
    cases hts : hasTs s with
    | true => rfl
    | false => exact absurd hts hne
  have : hasTs l = true := by
    rw [← hab, List.append_assoc]
    exact hasTs_append_left a (hasTs_append_right b hs)
  rw [this] at h
  exact absurd h (by simp)

theorem tsAt_none_of_hasTs_false {l : List Char} (h : hasTs l = false) : tsAt l = none := by
  cases l with
  | nil => rfl
  | cons c r =>
    rw [hasTs_cons] at h
    cases ht : tsAt (c :: r) with
    | none => rfl
    | some p =>
      rw [ht] at h
      simp at h

theorem rangeAt_none_of_hasTs_false {l : List Char} (h : hasTs l = false) :
    rangeAt l = none := by
  unfold rangeAt
  rw [tsAt_none_of_hasTs_false h]

/-! ## Lines, stripping, and the empty scans (toolkit for C9 and C1) -/

theorem splitNl_ne_nil (l : List Char) : splitNl l ≠ [] := by
  cases l with
  | nil => simp [splitNl]
  | cons c r =>
    unfold splitNl
    split
    · simp
    · split <;> simp

theorem splitNl_no_nl (l : List Char) : ∀ p ∈ splitNl l, '\n' ∉ p := by
  induction l with
  | nil => simp [splitNl]
  | cons c r ih =>
    intro p hp
    unfold splitNl at hp
    split at hp
    · rcases List.mem_cons.mp hp with rfl | hmem
      · simp
      · exact ih p hmem
    · rename_i hc
      cases hsp : splitNl r with
      | nil => exact absurd hsp (splitNl_ne_nil r)
      | cons h t =>
        rw [hsp] at hp
        rcases List.mem_cons.mp hp with rfl | hmem
        · intro hin
          rcases List.mem_cons.mp hin with he | hin
          · exact hc he.symm
          · exact ih h (hsp ▸ List.mem_cons_self ..) hin
        · exact ih p (hsp ▸ List.mem_cons_of_mem _ hmem)

theorem splitNl_head_prefix (l h : List Char) (t : List (List Char))
    (hs : splitNl l = h :: t) : h <+: l := by
  induction l generalizing h t with
  | nil =>
    simp [splitNl] at hs
    simp [hs.1]
  | cons c r ih =>
    unfold splitNl at hs
    split at hs
    · rename_i hc
      obtain ⟨rfl, _⟩ := List.cons.injEq .. ▸ hs
      simp
    · cases hsp : splitNl r with
      | nil => exact absurd hsp (splitNl_ne_nil r)
      | cons h0 t0 =>
        rw [hsp] at hs
        obtain ⟨rfl, _⟩ := List.cons.injEq .. ▸ hs
        exact List.cons_prefix_cons.mpr ⟨rfl, ih h0 t0 hsp⟩

theorem splitNl_mem_infix (l : List Char) : ∀ p ∈ splitNl l, p <:+: l := by
  induction l with
  | nil =>
    simp [splitNl]
  | cons c r ih =>
    intro p hp
    unfold splitNl at hp
    split at hp
    · rcases List.mem_cons.mp hp with rfl | hmem
      · exact List.nil_infix
      · exact (ih p hmem).trans (List.infix_cons (List.infix_refl r))
    · cases hsp : splitNl r with
      | nil => exact absurd hsp (splitNl_ne_nil r)
      | cons h t =>
        rw [hsp] at hp
        rcases List.mem_cons.mp hp with rfl | hmem
        · exact (List.cons_prefix_cons.mpr ⟨rfl, splitNl_head_prefix r h t hsp⟩).isInfix
        · exact (ih p (hsp ▸ List.mem_cons_of_mem _ hmem)).trans
            (List.infix_cons (List.infix_refl r))

theorem dropWhile_head_not {f : Char → Bool} {x : List Char} {c : Char} {y : List Char}
    (h : x.dropWhile f = c :: y) : f c = false := by
  induction x with
  | nil => simp [List.dropWhile] at h
  | cons a r ih =>
    rw [List.dropWhile_cons] at h
    split at h
    · exact ih h
    · rename_i hf
      obtain ⟨rfl, _⟩ := List.cons.injEq .. ▸ h
      simpa using hf

theorem pyStripL_prefix_dropWhile (l : List Char) :
    pyStripL l <+: l.dropWhile isPySpace := by
  unfold pyStripL
  refine ⟨((l.dropWhile isPySpace).reverse.takeWhile isPySpace).reverse, ?_⟩
  rw [← List.reverse_append, List.takeWhile_append_dropWhile, List.reverse_reverse]

theorem pyStripL_infix (l : List Char) : pyStripL l <:+: l :=
  (pyStripL_prefix_dropWhile l).isInfix.trans (List.dropWhile_suffix _).isInfix

theorem hasTs_pyStripL {l : List Char} (h : hasTs l = false) :
    hasTs (pyStripL l) = false :=
  hasTs_infix ( pyStripL_infix l) h

theorem searchTs_none_of_hasTs_false {l : List Char} (h : hasTs l = false) :
    searchTs l = none := by
  unfold hasTs at h
  cases hs : searchTs l with
  | none => rfl
  | some p => rw [hs] at h; simp at h

theorem srtHeadAt_false {l : List Char} (h : hasTs l = false) : srtHeadAt l = false := by
  unfold srtHeadAt
  dsimp only
  split
  · rfl
  · split
    · have hsuf : ((l.dropWhile isDigitC).dropWhile isPySpace) <:+ l :=
        (List.dropWhile_suffix _).trans (List.dropWhile_suffix _)
      have := hasTs_infix hsuf.isInfix h
      rw [rangeAt_none_of_hasTs_false this]
      rfl
    · rfl

theorem srtCheckB_false {l : List Char} (h : hasTs l = false) : srtCheckB l = false := by
  induction l with
  | nil => rfl
  | cons c r ih =>
    have hr : hasTs r = false := by
      rw [hasTs_cons] at h
      exact (Bool.or_eq_false_iff.mp h).2
    unfold srtCheckB
    rw [srtHeadAt_false h, ih hr]
    rfl

theorem findRanges_nil {l : List Char} (fuel pos : Nat) (h : hasTs l = false) :
    findRanges fuel l pos = [] := by
  induction fuel generalizing l pos with
  | zero => rfl
  | succ f ih =>
    cases l with
    | nil => rfl
    | cons c r =>
      have hr : hasTs r = false := by
        rw [hasTs_cons] at h
        exact (Bool.or_eq_false_iff.mp h).2
      unfold findRanges
      rw [rangeAt_none_of_hasTs_false h]
      exact ih (pos + 1) hr

theorem tsLineLoop_nil (lines : List (List Char)) (ctext : List Char)
    (h : ∀ p ∈ lines, hasTs p = false) :
    tsLineLoop none ctext lines = .ok [] := by
  induction lines generalizing ctext with
  | nil => rfl
  | cons ln rest ih =>
    have hln : searchTs ln = none :=
      searchTs_none_of_hasTs_false (h ln (List.mem_cons_self ..))
    rw [show tsLineLoop none ctext (ln :: rest) =
      (match searchTs ln with
       | some (m, after) =>
         (do
           let flushed ← (pure ([] : List SegL) : Except Unit (List SegL))
           let rst ← tsLineLoop (some m) (pyStripL after) rest
           pure (flushed ++ rst))
       | none => tsLineLoop none ctext rest) from rfl, hln]
    exact ih ctext (fun p hp => h p (List.mem_cons_of_mem _ hp))

theorem dropWhile_eq_self_of_pyStripL_eq {l : List Char} (h : pyStripL l = l) :
    l.dropWhile isPySpace = l := by
  obtain ⟨b, hb⟩ := pyStripL_prefix_dropWhile l
  obtain ⟨a, ha⟩ := List.dropWhile_suffix (l := l) (p := isPySpace)
  rw [h] at hb
  have hlen1 : l.length + b.length = (l.dropWhile isPySpace).length := by
    rw [← hb, List.length_append]
  have hlen2 : a.length + (l.dropWhile isPySpace).length = l.length := by
    have := congrArg List.length ha
    simpa [List.length_append] using this
  have hb0 : b.length = 0 := by omega
  rw [List.length_eq_zero] at hb0
  rw [hb0, List.append_nil] at hb
  exact hb.symm

theorem pyStripL_head_not_space {l : List Char} {c : Char} {y : List Char}
    (h : pyStripL l = l) (hc : l = c :: y) : isPySpace c = false := by
  have hd := dropWhile_eq_self_of_pyStripL_eq h
  rw [hc] at hd
  exact dropWhile_head_not hd

theorem dropWhile_append_singleton_ne {f : Char → Bool} {c : Char} (x : List Char)
    (hc : f c = false) : (x ++ [c]).dropWhile f ≠ [] := by
  induction x with
  | nil => simp [List.dropWhile, hc]
  | cons a r ih =>
    rw [List.cons_append, List.dropWhile_cons]
    split
    · exact ih
    · simp

theorem pyStripL_cons_ne_nil {c : Char} (y : List Char) (hc : isPySpace c = false) :
    pyStripL (c :: y) ≠ [] := by
  unfold pyStripL
  rw [List.dropWhile_cons, hc]
  simp only [Bool.false_eq_true, if_false]
  intro hcontra
  rw [List.reverse_eq_nil_iff] at hcontra
  have : (c :: y).reverse = y.reverse ++ [c] := by simp
  rw [this] at hcontra
  exact dropWhile_append_singleton_ne _ hc hcontra

/-! ## The 10-second fallback chain (toolkit for C9) -/

theorem tsFields_tsOfMs (m : Nat) :
    tsFields (tsOfMs m) = some (m % 86400000 / 3600000, m % 86400000 / 60000 % 60,
      m % 86400000 / 1000 % 60, m % 86400000 % 1000) := by
  rw [tsOfMs_explicit]
  simp only [tsFields]
  rw [if_pos]
  · simp only [charVal_digitChar, Option.some.injEq, Prod.mk.injEq]
    refine ⟨by omega, by omega, by omega, by omega⟩
  · simp [digitChar_isDigit]

/-- Adding 10 seconds to a rendered time of day always succeeds and shifts
the represented value by 10000 ms (modulo one day, which `tsOfMs` already
reduces by). -/
theorem tsOfMs_congr {a b : Nat} (h : a % 86400000 = b % 86400000) :
    tsOfMs a = tsOfMs b := by
  unfold tsOfMs
  rw [h]

theorem addSecondsL_tsOfMs (m : Nat) :
    addSecondsL (tsOfMs m) 10 = .ok (tsOfMs (m + 10000)) := by
  unfold addSecondsL
  rw [tsFields_tsOfMs]
  dsimp only
  rw [if_pos ⟨by omega, by omega, by omega⟩]
  rw [tsOfMs_congr (a := (m % 86400000 / 3600000 * 3600 + m % 86400000 / 60000 % 60 * 60 +
      m % 86400000 / 1000 % 60 + 10) % 86400 * 1000 + m % 86400000 % 1000)
    (b := m + 10000) (by omega)]


theorem dropWhile_dropWhile (f : Char → Bool) (x : List Char) :
    (x.dropWhile f).dropWhile f = x.dropWhile f := by
  cases h : x.dropWhile f with
  | nil => rfl
  | cons c y => rw [List.dropWhile_cons, dropWhile_head_not h]; simp

theorem pyStripL_idem (l : List Char) : pyStripL (pyStripL l) = pyStripL l := by
  have h1 : (pyStripL l).dropWhile isPySpace = pyStripL l := by
    cases hu : pyStripL l with
    | nil => rfl
    | cons c y =>
      obtain ⟨b, hb⟩ := pyStripL_prefix_dropWhile l
      rw [hu] at hb
      have hc : isPySpace c = false := dropWhile_head_not hb.symm
      rw [List.dropWhile_cons, hc]
      simp
  have h2 : (pyStripL l).reverse = ((l.dropWhile isPySpace).reverse).dropWhile isPySpace := by
    unfold pyStripL
    rw [List.reverse_reverse]
  show ((((pyStripL l).dropWhile isPySpace).reverse).dropWhile isPySpace).reverse = pyStripL l
  rw [h1, h2, dropWhile_dropWhile, ← h2, List.reverse_reverse]

theorem fallback_spec (ls : List (List Char)) (m : Nat) :
    ∃ segs, fallbackBuild (tsOfMs m) ls = .ok segs ∧
      segs.length = ls.length ∧
      chainedFrom (tsOfMs m) segs ls ∧
      ∀ sg, segs.head? = some sg → sg.2.1 = tsOfMs (m + 10000) := by
  induction ls generalizing m with
  | nil =>
    refine ⟨[], rfl, rfl, trivial, ?_⟩
    intro sg hsg
    simp at hsg
  | cons ln ls ih =>
    obtain ⟨rest, hrest, hlen, hchain, _⟩ := ih (m + 10000)
    refine ⟨(tsOfMs m, tsOfMs (m + 10000), ln) :: rest, ?_, by simp [hlen], ⟨rfl, rfl, hchain⟩, ?_⟩
    · rw [show fallbackBuild (tsOfMs m) (ln :: ls) =
          ((addSecondsL (tsOfMs m) 10) >>= fun en =>
            (fallbackBuild en ls) >>= fun rest => pure ((tsOfMs m, en, ln) :: rest)) from rfl]
      rw [addSecondsL_tsOfMs m]
      rw [show ((Except.ok (tsOfMs (m + 10000)) : Except Unit (List Char)) >>= fun en =>
            (fallbackBuild en ls) >>= fun rest => pure ((tsOfMs m, en, ln) :: rest)) =
          ((fallbackBuild (tsOfMs (m + 10000)) ls) >>= fun rest =>
            pure ((tsOfMs m, tsOfMs (m + 10000), ln) :: rest)) from rfl]
      rw [hrest]
      rfl
    · intro sg hsg
      rw [List.head?_cons, Option.some.injEq] at hsg
      rw [← hsg]

theorem except_bind_ok {α β : Type} (a : α) (f : α → Except Unit β) :
    (Except.ok a : Except Unit α) >>= f = f a := rfl

theorem except_pure_bind {α β : Type} (a : α) (f : α → Except Unit β) :
    (pure a : Except Unit α) >>= f = f a := rfl

theorem fallback_exact (ls : List (List Char)) (k : Nat) :
    fallbackBuild (tsOfMs (10000 * k)) ls = .ok (tenChain k ls) := by
  induction ls generalizing k with
  | nil => rfl
  | cons ln ls ih =>
    rw [show fallbackBuild (tsOfMs (10000 * k)) (ln :: ls) =
        (addSecondsL (tsOfMs (10000 * k)) 10) >>= fun e =>
          (fallbackBuild e ls) >>= fun rest =>
            pure ((tsOfMs (10000 * k), e, ln) :: rest) from rfl]
    rw [addSecondsL_tsOfMs]
    rw [show (10000 * k + 10000) = 10000 * (k + 1) from by omega]
    rw [except_bind_ok, ih (k + 1), except_bind_ok]
    rfl


/-- C9 (confirmed): for every input whose cleaned text is non-blank and
contains no timestamp of a recognized shape (neither canonical
`HH:MM:SS,mmm` nor short `MM:SS,mmm`), parsing succeeds and each
non-blank stripped line becomes its own cue in order, laid out
back-to-back with no gaps: the cue at 0-based position `k` starts at
`10000·k` milliseconds (the first at `00:00:00,000`) and ends at
`10000·(k+1)` milliseconds, so every cue lasts exactly 10 seconds and
each subsequent cue's start time equals the previous cue's end time. -/
theorem c9_no_timestamp_fallback (raw t : List Char)
    (hc : cleanL raw = .ok t) (hne : pyStripL t ≠ [])
    (hts : hasTs t = false) (hsh : hasShort t = false) :
    parseTranscriptionL raw = .ok
      (tenChain 0 (((splitNl (pyStripL t)).map pyStripL).filter (fun x => !x.isEmpty))) := by
  have htne : t ≠ [] := fun h0 => hne (by rw [h0]; rfl)
  have htE : t.isEmpty = false := by
    cases t with
    | nil => exact absurd rfl htne
    | cons a b => rfl
  have hsE : (pyStripL t).isEmpty = false := by
    cases h0 : pyStripL t with
    | nil => exact absurd h0 hne
    | cons a b => rfl
  have hsrt : srtCheckB t = false := srtCheckB_false hts
  have hfr : findRanges (t.length + 1) t 0 = [] := findRanges_nil _ _ hts
  have hloop : tsLineLoop none [] (splitNl (pyStripL t)) = .ok [] :=
    tsLineLoop_nil _ _ (fun p hp =>
      hasTs_infix (( splitNl_mem_infix _ p hp).trans ( pyStripL_infix t)) hts)
  have hsidem : pyStripL (pyStripL t) = pyStripL t := pyStripL_idem t
  obtain ⟨c, y, hcy⟩ : ∃ c y, pyStripL t = c :: y := by
    cases h0 : pyStripL t with
    | nil => exact absurd h0 hne
    | cons c y => exact ⟨c, y, rfl⟩
  have hcns : isPySpace c = false := pyStripL_head_not_space hsidem hcy
  have hcnl : ¬ c = '\n' := by
    intro h0
    rw [h0] at hcns
    exact absurd hcns (by decide)
  obtain ⟨h0, t0, hsplit⟩ : ∃ h0 t0, splitNl (pyStripL t) = (c :: h0) :: t0 := by
    rw [hcy]
    unfold splitNl
    rw [if_neg hcnl]
    cases hsp : splitNl y with
    | nil => exact absurd hsp (splitNl_ne_nil y)
    | cons hh tt => exact ⟨hh, tt, rfl⟩
  have hfirstne : (pyStripL (c :: h0)).isEmpty = false := by
    cases h1 : pyStripL (c :: h0) with
    | nil => exact absurd h1 (pyStripL_cons_ne_nil h0 hcns)
    | cons a b => rfl
  have hlsne : (((splitNl (pyStripL t)).map pyStripL).filter (fun x => !x.isEmpty)) ≠ [] := by
    rw [hsplit]
    simp only [List.map_cons, List.filter_cons, hfirstne, Bool.not_false, if_true]
    simp
  have hz : zeroTs = tsOfMs (10000 * 0) := by decide
  have hbuilt := fallback_exact
    (((splitNl (pyStripL t)).map pyStripL).filter (fun x => !x.isEmpty)) 0
  have hbne : (tenChain 0
      (((splitNl (pyStripL t)).map pyStripL).filter (fun x => !x.isEmpty))).isEmpty = false := by
    cases hls : ((splitNl (pyStripL t)).map pyStripL).filter (fun x => !x.isEmpty) with
    | nil => exact absurd hls hlsne
    | cons a b => rfl
  unfold parseTranscriptionL
  rw [hc, except_bind_ok]
  simp only [htE, hsE, Bool.or_self, Bool.false_eq_true, if_false, hsrt, hfr]
  simp only [List.isEmpty_nil, Bool.not_true, Bool.false_eq_true, if_false]
  rw [hloop, except_bind_ok]
  simp only [List.isEmpty_nil, Bool.not_false, Bool.and_self, if_true]
  rw [hz, hbuilt, except_bind_ok, except_pure_bind, hbne]
  simp only [Bool.false_eq_true, if_false, hbne]
  rfl

/-- Witness for C9 on Scenario E: the two-line no-timestamp input yields
exactly two back-to-back 10-second cues starting at `00:00:00,000` and
`00:00:10,000`. -/
theorem c9_no_timestamp_fallback_witness :
    parseTranscriptionL "Just some plain text\nwith two lines".data = .ok
      [("00:00:00,000".data, "00:00:10,000".data, "Just some plain text".data),
       ("00:00:10,000".data, "00:00:20,000".data, "with two lines".data)] := by
  have h := c9_no_timestamp_fallback "Just some plain text\nwith two lines".data
    "Just some plain text\nwith two lines".data (by rfl) (by decide) (by decide) (by decide)
  rw [h]
  exact congrArg Except.ok (by decide)

/-! ## Blank-line-freeness toolkit (for C1) -/

theorem noNl2_cons_elim {c : Char} {r : List Char} (h : noNl2 (c :: r) = true) :
    noNl2 r = true := by
  cases r with
  | nil => rfl
  | cons d r' =>
    unfold noNl2 at h
    exact (Bool.and_eq_true .. |>.mp h).2

theorem noNl2_append_right {x y : List Char} (h : noNl2 (x ++ y) = true) :
    noNl2 y = true := by
  induction x with
  | nil => exact h
  | cons c r ih => exact ih (noNl2_cons_elim h)

theorem noNl2_pair {c d : Char} {r : List Char} (h : noNl2 (c :: d :: r) = true) :
    ¬ (c = '\n' ∧ d = '\n') := by
  unfold noNl2 at h
  have := (Bool.and_eq_true .. |>.mp h).1
  intro hcd
  rw [hcd.1, hcd.2] at this
  exact absurd this (by decide)

theorem noNl2_cons {c : Char} {z : List Char}
    (h1 : c = '\n' → z.head? ≠ some '\n') (h2 : noNl2 z = true) :
    noNl2 (c :: z) = true := by
  cases z with
  | nil => rfl
  | cons d z' =>
    unfold noNl2
    rw [h2]
    have : ¬ (c = '\n' ∧ d = '\n') := by
      intro hcd
      exact h1 hcd.1 (by rw [hcd.2, List.head?_cons])
    simp [this]

theorem noNl2_append_left {x y : List Char} (h : noNl2 (x ++ y) = true) :
    noNl2 x = true := by
  induction x with
  | nil => rfl
  | cons c r ih =>
    cases r with
    | nil => rfl
    | cons d r' =>
      rw [List.cons_append, List.cons_append] at h
      refine noNl2_cons ?_ (ih (noNl2_cons_elim h))
      intro hc hd
      rw [List.head?_cons, Option.some.injEq] at hd
      exact noNl2_pair h ⟨hc, hd⟩

theorem noNl2_infix {p l : List Char} (hinf : p <:+: l) (h : noNl2 l = true) :
    noNl2 p = true := by
  obtain ⟨a, b, hab⟩ := hinf
  have h1 : noNl2 (p ++ b) = true := noNl2_append_right (x := a) (by rw [← List.append_assoc, hab]; exact h)
  exact noNl2_append_left h1

theorem noNl2_of_no_nl {l : List Char} (h : ∀ c ∈ l, c ≠ '\n') : noNl2 l = true := by
  induction l with
  | nil => rfl
  | cons c r ih =>
    refine noNl2_cons ?_ (ih (fun a ha => h a (List.mem_cons_of_mem _ ha)))
    intro hc
    exact absurd hc (h c (List.mem_cons_self ..))

theorem noNl2_append {x y : List Char} (hx : noNl2 x = true) (hy : noNl2 y = true)
    (hxy : x.getLast? ≠ some '\n' ∨ y.head? ≠ some '\n') : noNl2 (x ++ y) = true := by
  induction x with
  | nil => simpa using hy
  | cons c r ih =>
    cases r with
    | nil =>
      rw [List.singleton_append]
      refine noNl2_cons ?_ hy
      intro hc
      rcases hxy with h1 | h1
      · exact absurd (by rw [hc]; rfl) h1
      · exact h1
    | cons d r' =>
      rw [List.cons_append]
      refine noNl2_cons ?_ (ih (noNl2_cons_elim hx) ?_)
      · intro hc hh
        rw [List.cons_append, List.head?_cons, Option.some.injEq] at hh
        exact noNl2_pair hx ⟨hc, hh⟩
      · rcases hxy with h1 | h1
        · left
          rw [List.getLast?_cons_cons] at h1
          exact h1
        · right
          exact h1

theorem joinNl_head (y : List Char) (t : List (List Char)) (hy : y ≠ []) :
    (joinNl (y :: t)).head? = some '\n' → y.head? = some '\n' := by
  cases t with
  | nil => exact fun h => h
  | cons z t' =>
    intro h
    unfold joinNl at h
    cases y with
    | nil => exact absurd rfl hy
    | cons a y' =>
      rw [List.cons_append, List.head?_cons, Option.some.injEq] at h
      rw [h]
      rfl

theorem joinNl_noNl2 (ls : List (List Char))
    (h : ∀ p ∈ ls, p ≠ [] ∧ '\n' ∉ p) : noNl2 (joinNl ls) = true := by
  induction ls with
  | nil => rfl
  | cons x t ih =>
    cases t with
    | nil =>
      exact noNl2_of_no_nl (fun c hc he => (h x (List.mem_cons_self ..)).2 (he ▸ hc))
    | cons y t' =>
      unfold joinNl
      obtain ⟨hxne, hxnl⟩ := h x (List.mem_cons_self ..)
      refine noNl2_append (noNl2_of_no_nl (fun c hc he => hxnl (he ▸ hc))) ?_ ?_
      · refine noNl2_cons ?_ (ih (fun p hp => h p (List.mem_cons_of_mem _ hp)))
        intro _ hh
        obtain ⟨hyne, hynl⟩ := h y (List.mem_cons_of_mem _ (List.mem_cons_self ..))
        have hyh := joinNl_head y t' hyne hh
        cases y with
        | nil => exact hyne rfl
        | cons a y' =>
          rw [List.head?_cons, Option.some.injEq] at hyh
          exact hynl (hyh ▸ List.mem_cons_self ..)
      · left
        intro hlast
        have : '\n' ∈ x := by
          obtain ⟨hne', heq⟩ :=
            List.mem_getLast?_eq_getLast (show '\n' ∈ x.getLast? from hlast)
          exact heq ▸ List.getLast_mem hne'
        exact hxnl this

/-! ## Character-shape lemmas for timestamps (for C1) -/

theorem except_bind_error {α β : Type} (e : Unit) (f : α → Except Unit β) :
    (Except.error e : Except Unit α) >>= f = Except.error e := rfl

theorem except_pure_eq {α : Type} (a : α) : (pure a : Except Unit α) = Except.ok a := rfl

theorem shortAt_eq {l m r : List Char} (h : shortAt l = some (m, r)) :
    l = m ++ r ∧ m ≠ [] ∧ ∀ c ∈ m, c ≠ '\n' := by
  unfold shortAt at h
  split at h
  · rename_i c0 c1 c2 c3 c4 c5 c6 c7 c8 rest
    split at h
    · rename_i hc
      obtain ⟨h1, h2, h3, h4, h5, h6, h7, h8, h9⟩ := hc
      obtain ⟨hm, hr⟩ := Prod.mk.injEq .. ▸ Option.some.injEq .. ▸ h
      subst hm
      subst hr
      refine ⟨rfl, by simp, ?_⟩
      intro c hc
      simp only [List.mem_cons, List.not_mem_nil, or_false] at hc
      rcases hc with rfl | rfl | rfl | rfl | rfl | rfl | rfl | rfl | rfl <;>
        first
        | exact isDigit_ne_nl (by assumption)
        | (intro hne; simp_all)
    · exact absurd h (by simp)
  · exact absurd h (by simp)

theorem canonTs_no_nl {s : List Char} (h : canonTs s = true) : ∀ c ∈ s, c ≠ '\n' := by
  unfold canonTs at h
  split at h
  · rename_i m hm
    obtain ⟨he, _, _, hnl⟩ := tsAt_eq hm
    intro c hc
    exact hnl c (by simpa [he] using hc)
  · exact absurd h (by simp)

theorem tsOfMs_no_nl (m : Nat) : ∀ c ∈ tsOfMs m, c ≠ '\n' :=
  canonTs_no_nl (canonTs_tsOfMs m)

theorem searchTs_decomp {l m after : List Char} (h : searchTs l = some (m, after)) :
    canonTs m = true ∧ (∀ c ∈ m, c ≠ '\n') ∧ ∃ pre, l = pre ++ (m ++ after) := by
  induction l with
  | nil => exact absurd h (by simp [searchTs])
  | cons c r ih =>
    rw [show searchTs (c :: r) = (match tsAt (c :: r) with
      | some (m, rest) => some (m, rest)
      | none => searchTs r) from rfl] at h
    cases ht : tsAt (c :: r) with
    | some p =>
      obtain ⟨m', rest'⟩ := p
      rw [ht] at h
      obtain ⟨hm, hr⟩ := Prod.mk.injEq .. ▸ Option.some.injEq .. ▸ h
      subst hm
      subst hr
      obtain ⟨he, _, hcanon, hnl⟩ := tsAt_eq ht
      exact ⟨hcanon, hnl, [], by simpa using he⟩
    | none =>
      rw [ht] at h
      obtain ⟨hcanon, hnl, pre, hpre⟩ := ih h
      exact ⟨hcanon, hnl, c :: pre, by rw [List.cons_append, ← hpre]⟩

theorem addSecondsL_ok_facts {ts r : List Char} {n : Nat}
    (h : addSecondsL ts n = .ok r) : canonTs r = true ∧ ∀ c ∈ r, c ≠ '\n' := by
  unfold addSecondsL at h
  split at h
  · exact absurd h (by simp)
  · split at h
    · have hr : r = tsOfMs _ := (Except.ok.injEq .. ▸ h).symm
      rw [hr]
      exact ⟨canonTs_tsOfMs _, tsOfMs_no_nl _⟩
    · exact absurd h (by simp)

/-! ## The cleaned text contains no blank line (for C1) -/

theorem fix_head {fuel : Nat} {r : List Char}
    (h : (fixTimestamps fuel r).head? = some '\n') : r.head? = some '\n' := by
  cases fuel with
  | zero => exact h
  | succ f =>
    cases r with
    | nil => exact h
    | cons c r' =>
      unfold fixTimestamps at h
      split at h
      · rename_i m rest hm
        obtain ⟨he, hne, hnl⟩ := shortAt_eq hm
        rw [List.head?_cons, Option.some.injEq] at h
        exact absurd h (by decide)
      · exact h

theorem fix_noNl2 (fuel : Nat) (l : List Char) (h : noNl2 l = true) :
    noNl2 (fixTimestamps fuel l) = true := by
  induction fuel generalizing l with
  | zero => exact h
  | succ f ih =>
    cases l with
    | nil => rfl
    | cons c r =>
      unfold fixTimestamps
      split
      · rename_i m rest hm
        obtain ⟨he, hne, hnl⟩ := shortAt_eq hm
        have hrest : noNl2 rest = true := noNl2_append_right (he ▸ h)
        refine noNl2_append (x := '0' :: '0' :: ':' :: m) (y := fixTimestamps f rest)
          ?_ (ih rest hrest) ?_
        · refine noNl2_of_no_nl ?_
          intro a ha
          simp only [List.mem_cons] at ha
          rcases ha with rfl | rfl | rfl | ha
          · decide
          · decide
          · decide
          · exact hnl a ha
        · left
          intro hlast
          have : '\n' ∈ '0' :: '0' :: ':' :: m := by
            obtain ⟨hne', heq⟩ :=
              List.mem_getLast?_eq_getLast (show '\n' ∈ _ from hlast)
            exact heq ▸ List.getLast_mem hne'
          simp only [List.mem_cons] at this
          rcases this with h0 | h0 | h0 | h0
          · exact absurd h0 (by decide)
          · exact absurd h0 (by decide)
          · exact absurd h0 (by decide)
          · exact hnl '\n' h0 rfl
      · rename_i hm
        refine noNl2_cons ?_ (ih r (noNl2_cons_elim h))
        intro hc hh
        have hrh : r.head? = some '\n' := fix_head hh
        cases r with
        | nil => simp at hrh
        | cons d r' =>
          rw [List.head?_cons, Option.some.injEq] at hrh
          exact noNl2_pair h ⟨hc, hrh⟩

theorem hasRange_ne_nil {s : List Char} (h : hasRange s = true) : s ≠ [] := by
  intro he
  rw [he] at h
  exact absurd h (by decide)

theorem pyStripL_subset {a : Char} {l : List Char} (h : a ∈ pyStripL l) : a ∈ l :=
  ( pyStripL_infix l).subset h

theorem cleanLines_out (ls : List (List Char)) (h : ∀ q ∈ ls, '\n' ∉ q) :
    ∀ p ∈ cleanLines ls, p ≠ [] ∧ '\n' ∉ p := by
  induction ls using cleanLines.induct with
  | case1 => simp [cleanLines]
  | case2 x s ha =>
    intro p hp
    unfold cleanLines at hp
    dsimp only at hp
    rw [if_pos ha] at hp
    simp at hp
  | case3 x s ha hb =>
    intro p hp
    unfold cleanLines at hp
    dsimp only at hp
    rw [if_neg ha, if_pos hb, List.mem_singleton] at hp
    subst hp
    exact ⟨hasRange_ne_nil hb, fun hm => h x (List.mem_cons_self ..) (pyStripL_subset hm)⟩
  | case4 x s ha hb hc =>
    intro p hp
    unfold cleanLines at hp
    dsimp only at hp
    rw [if_neg ha, if_neg hb, if_pos hc, List.mem_singleton] at hp
    subst hp
    refine ⟨?_, fun hm => h x (List.mem_cons_self ..) (pyStripL_subset hm)⟩
    intro he
    have hse : s = [] := he
    rw [hse] at hc
    exact absurd hc (by decide)
  | case5 x s ha hb hc =>
    intro p hp
    unfold cleanLines at hp
    dsimp only at hp
    rw [if_neg ha, if_neg hb, if_neg hc] at hp
    simp at hp
  | case6 x y t s ha ih =>
    intro p hp
    unfold cleanLines at hp
    dsimp only at hp
    rw [if_pos ha] at hp
    exact ih (fun q hq => h q (List.mem_cons_of_mem _ hq)) p hp
  | case7 x y t s ha hb ih =>
    intro p hp
    unfold cleanLines at hp
    dsimp only at hp
    rw [if_neg ha, if_pos hb] at hp
    rcases List.mem_cons.mp hp with rfl | hmem
    · exact ⟨hasRange_ne_nil hb, fun hm => h x (List.mem_cons_self ..) (pyStripL_subset hm)⟩
    · exact ih (fun q hq => h q (List.mem_cons_of_mem _ hq)) p hmem
  | case8 x y t s ha hb hc ih =>
    intro p hp
    unfold cleanLines at hp
    dsimp only at hp
    rw [if_neg ha, if_neg hb, if_pos hc] at hp
    rcases List.mem_cons.mp hp with rfl | hmem
    · exact ⟨hasRange_ne_nil hc, fun hm =>
        h y (List.mem_cons_of_mem _ (List.mem_cons_self ..)) (pyStripL_subset hm)⟩
    · exact ih (fun q hq => h q (List.mem_cons_of_mem _ (List.mem_cons_of_mem _ hq))) p hmem
  | case9 x y t s ha hb hc hd ih =>
    intro p hp
    unfold cleanLines at hp
    dsimp only at hp
    rw [if_neg ha, if_neg hb, if_neg hc, if_pos hd] at hp
    rcases List.mem_cons.mp hp with rfl | hmem
    · refine ⟨?_, fun hm => h x (List.mem_cons_self ..) (pyStripL_subset hm)⟩
      intro he
      have hse : s = [] := he
      rw [hse] at hd
      exact absurd hd (by decide)
    · exact ih (fun q hq => h q (List.mem_cons_of_mem _ hq)) p hmem
  | case10 x y t s ha hb hc hd ih =>
    intro p hp
    unfold cleanLines at hp
    dsimp only at hp
    rw [if_neg ha, if_neg hb, if_neg hc, if_neg hd] at hp
    exact ih (fun q hq => h q (List.mem_cons_of_mem _ hq)) p hp

theorem restructureLine_out {ln : List Char} {parts : List (List Char)}
    (h : restructureLine ln = .ok parts) (hnl : '\n' ∉ ln) :
    ∀ p ∈ parts, p ≠ [] ∧ '\n' ∉ p := by
  unfold restructureLine at h
  cases hs : searchTs ln with
  | some pr =>
    obtain ⟨m, after⟩ := pr
    rw [hs] at h
    dsimp only at h
    obtain ⟨hcanon, hmnl, pre, hpre⟩ := searchTs_decomp hs
    have hanl : '\n' ∉ after := fun hm =>
      hnl (hpre ▸ List.mem_append_right _ (List.mem_append_right _ hm))
    cases hadd : addSecondsL m 10 with
    | error e =>
      rw [hadd, except_bind_error] at h
      exact absurd h (by simp)
    | ok en =>
      rw [hadd, except_bind_ok] at h
      rw [except_pure_eq, Except.ok.injEq] at h
      obtain ⟨hec, henl⟩ := addSecondsL_ok_facts hadd
      split at h
      · rw [← h]
        simp
      · rename_i hce
        rw [← h]
        intro p hp
        rcases List.mem_cons.mp hp with rfl | hp2
        · constructor
          · have hm12 : m.length = 12 := canonTs_len hcanon
            intro he
            have := congrArg List.length he
            simp [hm12] at this
          · intro hin
            rcases List.mem_append.mp hin with h1 | h1
            · exact hmnl '\n' h1 rfl
            · simp only [List.mem_cons] at h1
              rcases h1 with h2 | h2 | h2 | h2 | h2 | h2
              · exact absurd h2 (by decide)
              · exact absurd h2 (by decide)
              · exact absurd h2 (by decide)
              · exact absurd h2 (by decide)
              · exact absurd h2 (by decide)
              · exact henl '\n' h2 rfl
        · rw [List.mem_singleton] at hp2
          subst hp2
          refine ⟨by simpa using hce, ?_⟩
          intro hm
          exact hanl (pyStripL_subset hm)
  | none =>
    rw [hs] at h
    dsimp only at h
    rw [except_pure_eq, Except.ok.injEq] at h
    split at h
    · rw [← h]
      simp
    · rename_i hce
      rw [← h]
      intro p hp
      rw [List.mem_singleton] at hp
      subst hp
      exact ⟨by simpa using hce, fun hm => hnl (pyStripL_subset hm)⟩

theorem restructureGo_out {lines : List (List Char)} {parts : List (List Char)}
    (h : restructureGo lines = .ok parts) (hnl : ∀ q ∈ lines, '\n' ∉ q) :
    ∀ p ∈ parts, p ≠ [] ∧ '\n' ∉ p := by
  induction lines generalizing parts with
  | nil =>
    rw [show restructureGo [] = .ok [] from rfl, Except.ok.injEq] at h
    rw [← h]
    simp
  | cons ln rest ih =>
    rw [show restructureGo (ln :: rest) =
        (restructureLine ln >>= fun ps =>
          restructureGo rest >>= fun rs => pure (ps ++ rs)) from rfl] at h
    cases hline : restructureLine ln with
    | error e =>
      rw [hline, except_bind_error] at h
      exact absurd h (by simp)
    | ok ps =>
      rw [hline, except_bind_ok] at h
      cases hgo : restructureGo rest with
      | error e =>
        rw [hgo, except_bind_error] at h
        exact absurd h (by simp)
      | ok rs =>
        rw [hgo, except_bind_ok, except_pure_eq, Except.ok.injEq] at h
        rw [← h]
        intro p hp
        rcases List.mem_append.mp hp with h1 | h1
        · exact restructureLine_out hline (hnl ln (List.mem_cons_self ..)) p h1
        · exact ih hgo (fun q hq => hnl q (List.mem_cons_of_mem _ hq)) p h1

theorem restructure_noNl2 {l t : List Char} (h : restructure l = .ok t) :
    noNl2 t = true := by
  rw [show restructure l =
      (restructureGo (splitNl l) >>= fun parts => pure (joinNl parts)) from rfl] at h
  cases hgo : restructureGo (splitNl l) with
  | error e =>
    rw [hgo, except_bind_error] at h
    exact absurd h (by simp)
  | ok parts =>
    rw [hgo, except_bind_ok, except_pure_eq, Except.ok.injEq] at h
    rw [← h]
    exact joinNl_noNl2 parts (restructureGo_out hgo (splitNl_no_nl l))

theorem clean_noNl2 {raw t : List Char} (h : cleanL raw = .ok t) : noNl2 t = true := by
  unfold cleanL at h
  split at h
  · rw [Except.ok.injEq] at h
    rw [← h]
    rfl
  · dsimp only at h
    have h4 : noNl2 (joinNl (cleanLines (splitNl (pyStripL
        (collapseNl ((cleanMarkdown (cleanGreetings raw)).length + 1)
          (cleanMarkdown (cleanGreetings raw))))))) = true := by
      refine joinNl_noNl2 _ ?_
      exact cleanLines_out _ (splitNl_no_nl _)
    split at h
    · exact restructure_noNl2 h
    · rw [Except.ok.injEq] at h
      rw [← h]
      exact fix_noNl2 _ _ h4

/-! ## Parse invariant: every produced cue is well-shaped (for C1) -/

theorem goodSeg_default : GoodSeg defaultSeg :=
  ⟨by decide, by decide, by decide, by decide⟩

theorem tsAt_suffix {l m r : List Char} (h : tsAt l = some (m, r)) : r <:+ l := by
  obtain ⟨he, _, _, _⟩ := tsAt_eq h
  exact ⟨m, he.symm⟩

theorem dropStart?_suffix {pat l r : List Char} (h : dropStart? pat l = some r) :
    r <:+ l := by
  induction pat generalizing l with
  | nil =>
    unfold dropStart? at h
    rw [Option.some.injEq] at h
    exact h ▸ List.suffix_refl _
  | cons p ps ih =>
    cases l with
    | nil => exact absurd h (by simp [dropStart?])
    | cons c cs =>
      unfold dropStart? at h
      split at h
      · exact (ih h).trans (List.suffix_cons c cs)
      · exact absurd h (by simp)

theorem afterLastNl_suffix {l y : List Char} (h : afterLastNl l = some y) : y <:+ l := by
  induction l generalizing y with
  | nil => exact absurd h (by simp [afterLastNl])
  | cons c r ih =>
    unfold afterLastNl at h
    split at h
    · rename_i x hx
      rw [Option.some.injEq] at h
      exact (h ▸ ih hx).trans (List.suffix_cons c r)
    · split at h
      · rw [Option.some.injEq] at h
        exact h ▸ List.suffix_cons c r
      · exact absurd h (by simp)

theorem lazyBody_append (l : List Char) : (lazyBody l).1 ++ (lazyBody l).2 = l := by
  induction l with
  | nil => rfl
  | cons c r ih =>
    unfold lazyBody
    split
    · rfl
    · dsimp only
      rw [List.cons_append]
      exact congrArg (c :: ·) ih

theorem rangeAt_inv {l t1 t2 r : List Char} (h : rangeAt l = some (t1, t2, r)) :
    canonTs t1 = true ∧ canonTs t2 = true ∧ r <:+ l := by
  unfold rangeAt at h
  cases h1 : tsAt l with
  | none => rw [h1] at h; exact absurd h (by simp)
  | some p1 =>
    obtain ⟨m1, r1⟩ := p1
    rw [h1] at h
    dsimp only at h
    cases h2 : dropStart? ['-', '-', '>'] (r1.dropWhile isPySpace) with
    | none => rw [h2] at h; exact absurd h (by simp)
    | some r2 =>
      rw [h2] at h
      dsimp only at h
      cases h3 : tsAt (r2.dropWhile isPySpace) with
      | none => rw [h3] at h; exact absurd h (by simp)
      | some p2 =>
        obtain ⟨m2, r3⟩ := p2
        rw [h3] at h
        dsimp only at h
        simp only [Option.some.injEq, Prod.mk.injEq] at h
        obtain ⟨rfl, rfl, rfl⟩ := h
        obtain ⟨_, _, hc1, _⟩ := tsAt_eq h1
        obtain ⟨_, _, hc2, _⟩ := tsAt_eq h3
        refine ⟨hc1, hc2, ?_⟩
        have hs3 : r3 <:+ r2.dropWhile isPySpace := tsAt_suffix h3
        have hs2 : r2 <:+ r1.dropWhile isPySpace := dropStart?_suffix h2
        have hs1 : r1 <:+ l := tsAt_suffix h1
        exact hs3.trans ((List.dropWhile_suffix _).trans (hs2.trans
          ((List.dropWhile_suffix _).trans hs1)))

theorem findRanges_inv (fuel : Nat) (l : List Char) (pos : Nat) :
    ∀ x ∈ findRanges fuel l pos, canonTs x.1 = true ∧ canonTs x.2.1 = true := by
  induction fuel generalizing l pos with
  | zero => simp [findRanges]
  | succ f ih =>
    intro x hx
    cases l with
    | nil => simp [findRanges] at hx
    | cons c r =>
      unfold findRanges at hx
      split at hx
      · rename_i t1 t2 rest hr
        rcases List.mem_cons.mp hx with rfl | hmem
        · obtain ⟨hc1, hc2, _⟩ := rangeAt_inv hr
          exact ⟨hc1, hc2⟩
        · exact ih _ _ x hmem
      · exact ih _ _ x hx

theorem sliceL_infix (l : List Char) (a b : Nat) : sliceL l a b <:+: l :=
  ((List.take_prefix _ _).isInfix).trans (List.drop_suffix _ _).isInfix

/-- The caption text shape needed for `GoodSeg`: `pyStripL` of any infix of
a blank-line-free text. -/
theorem goodText_of_infix {x t : List Char} (hinf : x <:+: t) (hnl : noNl2 t = true) :
    noNl2 (pyStripL x) = true ∧ pyStripL (pyStripL x) = pyStripL x :=
  ⟨ noNl2_infix (( pyStripL_infix x).trans hinf) hnl, pyStripL_idem x⟩

theorem srtBlockAt_inv {l : List Char} {ds t1 t2 body rest : List Char}
    (h : srtBlockAt l = some (ds, t1, t2, body, rest)) :
    canonTs t1 = true ∧ canonTs t2 = true ∧ body <:+: l ∧ rest <:+ l := by
  unfold srtBlockAt at h
  dsimp only at h
  split at h
  · exact absurd h (by simp)
  · split at h
    · cases h1 : tsAt ((l.dropWhile isDigitC).dropWhile isPySpace) with
      | none => rw [h1] at h; exact absurd h (by simp)
      | some p1 =>
        obtain ⟨m1, r3⟩ := p1
        rw [h1] at h
        dsimp only at h
        cases h2 : dropStart? ['-', '-', '>'] (r3.dropWhile isPySpace) with
        | none => rw [h2] at h; exact absurd h (by simp)
        | some r4 =>
          rw [h2] at h
          dsimp only at h
          cases h3 : tsAt (r4.dropWhile isPySpace) with
          | none => rw [h3] at h; exact absurd h (by simp)
          | some p2 =>
            obtain ⟨m2, r5⟩ := p2
            rw [h3] at h
            dsimp only at h
            cases h4 : afterLastNl (r5.takeWhile isPySpace) with
            | none => rw [h4] at h; exact absurd h (by simp)
            | some wtail =>
              rw [h4] at h
              dsimp only at h
              cases hlz : lazyBody (wtail ++ r5.dropWhile isPySpace) with
              | mk bd rs =>
                rw [hlz] at h
                dsimp only at h
                simp only [Option.some.injEq, Prod.mk.injEq] at h
                obtain ⟨_, rfl, rfl, rfl, rfl⟩ := h
                obtain ⟨_, _, hc1, _⟩ := tsAt_eq h1
                obtain ⟨_, _, hc2, _⟩ := tsAt_eq h3
                have hr5 : r5 <:+ l :=
                  (tsAt_suffix h3).trans ((List.dropWhile_suffix _).trans
                    ((dropStart?_suffix h2).trans ((List.dropWhile_suffix _).trans
                      ((tsAt_suffix h1).trans ((List.dropWhile_suffix _).trans
                        (List.dropWhile_suffix _))))))
                have hwr : wtail ++ r5.dropWhile isPySpace <:+ r5 := by
                  obtain ⟨w0, hw0⟩ := afterLastNl_suffix h4
                  refine ⟨w0, ?_⟩
                  rw [← List.append_assoc, hw0, List.takeWhile_append_dropWhile]
                have hlb : bd ++ rs = wtail ++ r5.dropWhile isPySpace := by
                  have := lazyBody_append (wtail ++ r5.dropWhile isPySpace)
                  rw [hlz] at this
                  exact this
                refine ⟨hc1, hc2, ?_, ?_⟩
                · refine List.IsInfix.trans ?_ (hwr.trans hr5).isInfix
                  exact ⟨[], rs, by rw [List.nil_append]; exact hlb⟩
                · exact (List.IsSuffix.trans ⟨bd, hlb⟩ hwr).trans hr5
    · exact absurd h (by simp)

theorem findSrtBlocks_inv (fuel : Nat) (l : List Char) :
    ∀ x ∈ findSrtBlocks fuel l,
      canonTs x.2.1 = true ∧ canonTs x.2.2.1 = true ∧ x.2.2.2 <:+: l := by
  induction fuel generalizing l with
  | zero => simp [findSrtBlocks]
  | succ f ih =>
    intro x hx
    cases l with
    | nil => simp [findSrtBlocks] at hx
    | cons c r =>
      unfold findSrtBlocks at hx
      split at hx
      · rename_i ds t1 t2 body rest hb
        obtain ⟨hc1, hc2, hbi, hrs⟩ := srtBlockAt_inv hb
        rcases List.mem_cons.mp hx with rfl | hmem
        · exact ⟨hc1, hc2, hbi⟩
        · obtain ⟨hh1, hh2, hh3⟩ := ih rest x hmem
          exact ⟨hh1, hh2, hh3.trans hrs.isInfix⟩
      · obtain ⟨hh1, hh2, hh3⟩ := ih r x hx
        exact ⟨hh1, hh2, hh3.trans (List.suffix_cons c r).isInfix⟩

theorem extractRealL_good {segs : List SegL} (h : ∀ sg ∈ segs, GoodSeg sg) :
    ∀ sg ∈ extractRealL segs, GoodSeg sg := by
  intro sg hsg
  rcases extractRealL_mem segs sg hsg with hm | he
  · exact h sg hm
  · exact he ▸ goodSeg_default

theorem extFilter_text {segs : List SegL} : ∀ sg ∈ extFilter segs, sg.2.2 ≠ [] := by
  induction segs with
  | nil => simp [extFilter]
  | cons a rest ih =>
    obtain ⟨s, e, t⟩ := a
    intro sg hsg
    simp only [extFilter] at hsg
    split at hsg
    · rename_i hg
      have hts : hasTs t = false := by
        simp only [Bool.and_eq_true, Bool.not_eq_true'] at hg
        exact hg.2
      rw [hts] at hsg
      simp only [Bool.false_eq_true, if_false] at hsg
      split at hsg
      · rename_i hne
        rcases List.mem_cons.mp hsg with rfl | hmem
        · intro hc
          rw [show t = [] from hc] at hne
          exact absurd hne (by decide)
        · exact ih sg hmem
      · exact ih sg hsg
    · exact ih sg hsg

theorem extractRealL_text (segs : List SegL) : ∀ sg ∈ extractRealL segs, sg.2.2 ≠ [] := by
  intro sg hsg
  unfold extractRealL at hsg
  dsimp only at hsg
  split at hsg
  · rw [List.mem_singleton] at hsg
    subst hsg
    decide
  · exact extFilter_text sg hsg

theorem extractRealL_ne_nil (segs : List SegL) : extractRealL segs ≠ [] := by
  unfold extractRealL
  dsimp only
  split
  · simp
  · rename_i hne
    intro hc
    rw [hc] at hne
    exact absurd hne (by decide)

theorem altScan_good {text : List Char} (hnl : noNl2 text = true) :
    ∀ sg ∈ altScan text, GoodSeg sg := by
  intro sg hsg
  unfold altScan at hsg
  rw [List.mem_filterMap] at hsg
  obtain ⟨x, hx, hguard⟩ := hsg
  obtain ⟨hc1, hc2⟩ := findRanges_inv _ _ _ x hx
  dsimp only at hguard
  split at hguard
  · rw [Option.some.injEq] at hguard
    subst hguard
    exact ⟨hc1, hc2, ( goodText_of_infix ( sliceL_infix text x.2.2 _) hnl).1,
      ( goodText_of_infix ( sliceL_infix text x.2.2 _) hnl).2⟩
  · exact absurd hguard (by simp)

theorem srtFiltered_good {text : List Char} (hnl : noNl2 text = true) (fuel : Nat) :
    ∀ sg ∈ (findSrtBlocks fuel text).filterMap
      (fun x =>
        if (!hasTs (pyStripL x.2.2.2) && !(pyStripL x.2.2.2).isEmpty &&
            !allDigits (pyStripL x.2.2.2)) = true then
          some (x.2.1, x.2.2.1, pyStripL x.2.2.2)
        else none), GoodSeg sg := by
  intro sg hsg
  rw [List.mem_filterMap] at hsg
  obtain ⟨x, hx, hguard⟩ := hsg
  obtain ⟨hc1, hc2, hbi⟩ := findSrtBlocks_inv _ _ x hx
  split at hguard
  · rw [Option.some.injEq] at hguard
    subst hguard
    exact ⟨hc1, hc2, ( goodText_of_infix hbi hnl).1, ( goodText_of_infix hbi hnl).2⟩
  · exact absurd hguard (by simp)

theorem parseSrtFormat_inv {text : List Char} (hnl : noNl2 text = true) :
    ∀ sg ∈ parseSrtFormatL text, GoodSeg sg := by
  intro sg hsg
  unfold parseSrtFormatL at hsg
  dsimp only at hsg
  split at hsg
  · split at hsg
    · rw [List.mem_singleton] at hsg
      exact hsg ▸ goodSeg_default
    · exact extractRealL_good (altScan_good hnl) sg hsg
  · split at hsg
    · rw [List.mem_singleton] at hsg
      exact hsg ▸ goodSeg_default
    · exact extractRealL_good (srtFiltered_good hnl _) sg hsg

/-! ## Grammar toolkit: one rendered block parses as one canonical block -/

theorem natGo_digits (f n : Nat) : ∀ c ∈ natGo f n, isDigitC c = true := by
  induction f generalizing n with
  | zero => intro c hc; simp [natGo] at hc
  | succ f ih =>
    intro c hc
    unfold natGo at hc
    split at hc
    · rw [List.mem_singleton] at hc
      subst hc
      exact digitChar_isDigit n
    · rw [List.mem_append] at hc
      rcases hc with hc | hc
      · exact ih _ c hc
      · rw [List.mem_singleton] at hc
        subst hc
        exact digitChar_isDigit _

theorem natChars_no_nl (n : Nat) : ∀ c ∈ natChars n, c ≠ '\n' :=
  fun c hc => isDigit_ne_nl (natGo_digits _ _ c hc)

theorem natChars_ne_nil (n : Nat) : natChars n ≠ [] := by
  unfold natChars natGo
  split
  · simp
  · simp

theorem takeUntilNl?_junction {p : List Char} (R : List Char) (hp : ∀ c ∈ p, c ≠ '\n') :
    takeUntilNl? (p ++ '\n' :: R) = some (p, R) := by
  induction p with
  | nil => rfl
  | cons c q ih =>
    show (if c = '\n' then some ([], q ++ '\n' :: R)
      else (takeUntilNl? (q ++ '\n' :: R)).map fun x => (c :: x.1, x.2)) = some (c :: q, R)
    rw [if_neg (hp c (List.mem_cons_self ..)),
      ih (fun d hd => hp d (List.mem_cons_of_mem _ hd))]
    rfl

theorem splitNlNl?_junction {t : List Char} (R : List Char)
    (hnl : noNl2 t = true) (hlast : t.getLast? ≠ some '\n') :
    splitNlNl? (t ++ '\n' :: '\n' :: R) = some (t, R) := by
  induction t with
  | nil => rfl
  | cons c q ih =>
    cases q with
    | nil =>
      have hc : ¬ c = '\n' := by
        intro h0
        exact hlast (by rw [h0]; rfl)
      show (if c = '\n' ∧ '\n' = '\n' then some ([], '\n' :: R)
        else (splitNlNl? ('\n' :: '\n' :: R)).map fun x => (c :: x.1, x.2)) = some ([c], R)
      rw [if_neg (fun h0 => hc h0.1),
        show splitNlNl? ('\n' :: '\n' :: R) = some ([], R) from rfl]
      rfl
    | cons d r =>
      have hpair : ¬ (c = '\n' ∧ d = '\n') := noNl2_pair hnl
      have hq : noNl2 (d :: r) = true := noNl2_cons_elim hnl
      have hql : (d :: r).getLast? ≠ some '\n' := by
        rw [List.getLast?_cons_cons] at hlast
        exact hlast
      show (if c = '\n' ∧ d = '\n' then some ([], r ++ '\n' :: '\n' :: R)
        else (splitNlNl? ((d :: r) ++ '\n' :: '\n' :: R)).map fun x => (c :: x.1, x.2)) =
        some (c :: d :: r, R)
      rw [if_neg hpair, ih hq hql]
      rfl

theorem tsAt_of_canon {s : List Char} (h : canonTs s = true) : tsAt s = some (s, []) := by
  unfold canonTs at h
  split at h
  · rename_i m hm
    obtain ⟨he, _, _, _⟩ := tsAt_eq hm
    rw [hm, he]
    simp
  · exact absurd h (by simp)

theorem tsAt_canon_append {s : List Char} (b : List Char) (h : canonTs s = true) :
    tsAt (s ++ b) = some (s, b) := by
  have := tsAt_append b (tsAt_of_canon h)
  simpa using this

theorem dropStart?_arrow (x : List Char) :
    dropStart? [' ', '-', '-', '>', ' '] (' ' :: '-' :: '-' :: '>' :: ' ' :: x) = some x := by
  simp [dropStart?]

theorem pyStripL_last_not_space {l : List Char} {c : Char}
    (h : pyStripL l = l) (hc : l.getLast? = some c) : isPySpace c = false := by
  have hrev : (l.dropWhile isPySpace).reverse.dropWhile isPySpace = l.reverse := by
    have h2 := congrArg List.reverse h
    rw [show (pyStripL l).reverse = (l.dropWhile isPySpace).reverse.dropWhile isPySpace by
      unfold pyStripL; rw [List.reverse_reverse]] at h2
    exact h2
  rw [← List.head?_reverse] at hc
  cases hl : l.reverse with
  | nil => rw [hl] at hc; exact absurd hc (by simp)
  | cons a b =>
    rw [hl, List.head?_cons, Option.some.injEq] at hc
    subst hc
    exact dropWhile_head_not (hrev.trans hl)

theorem stripped_head_ne_nl {t : List Char} (h : pyStripL t = t) :
    ¬ t.head? = some '\n' := by
  intro hc
  cases t with
  | nil => simp at hc
  | cons a b =>
    rw [List.head?_cons, Option.some.injEq] at hc
    subst hc
    exact absurd (pyStripL_head_not_space h rfl) (by decide)

theorem stripped_last_ne_nl {t : List Char} (h : pyStripL t = t) :
    ¬ t.getLast? = some '\n' :=
  fun hc => absurd (pyStripL_last_not_space h hc) (by decide)

theorem blockChars_ne_nil (i : Nat) (sg : SegL) : blockChars i sg ≠ [] := by
  intro h
  unfold blockChars at h
  simp at h

theorem specBlocks_cons_ne_nil (k : Nat) (sg : SegL) (rest : List SegL) :
    specBlocks k (sg :: rest) ≠ [] := by
  intro h
  rw [show specBlocks k (sg :: rest) = blockChars k sg ++ specBlocks (k + 1) rest from rfl,
    List.append_eq_nil] at h
  exact blockChars_ne_nil k sg h.1

theorem specBlocks_len_ge (k : Nat) (cs : List SegL) :
    cs.length ≤ (specBlocks k cs).length := by
  induction cs generalizing k with
  | nil => simp [specBlocks]
  | cons sg rest ih =>
    rw [show specBlocks k (sg :: rest) = blockChars k sg ++ specBlocks (k + 1) rest from rfl,
      List.length_append, List.length_cons]
    have h1 : 1 ≤ (blockChars k sg).length := by
      cases hb : blockChars k sg with
      | nil => exact absurd hb (blockChars_ne_nil k sg)
      | cons a b => simp
    have h2 := ih (k + 1)
    omega

theorem blockAt_blockChars (k : Nat) {sg : SegL} (R : List Char)
    (hg : GoodSeg sg) (hne : sg.2.2 ≠ []) :
    blockAt k (blockChars k sg ++ R) = some R := by
  obtain ⟨s, e, t⟩ := sg
  obtain ⟨hs, he, hnl, hstr⟩ := hg
  have hne' : t ≠ [] := hne
  have harr : blockChars k (s, e, t) ++ R =
      natChars k ++ '\n' :: (s ++ ' ' :: '-' :: '-' :: '>' :: ' ' ::
        (e ++ '\n' :: (t ++ '\n' :: '\n' :: R))) := by
    simp [blockChars]
  rw [harr]
  unfold blockAt
  rw [takeUntilNl?_junction _ (natChars_no_nl k)]
  dsimp only
  rw [if_pos rfl, tsAt_canon_append _ hs]
  dsimp only
  rw [dropStart?_arrow]
  dsimp only
  rw [tsAt_canon_append _ he]
  dsimp only
  rw [if_pos rfl, splitNlNl?_junction R hnl (stripped_last_ne_nl hstr)]
  dsimp only
  have h1 : ¬ t.isEmpty = true := by
    cases t with
    | nil => exact absurd rfl hne'
    | cons a b => simp
  rw [if_neg h1, if_neg (stripped_head_ne_nl hstr)]

theorem checkSRTGo_spec (fuel k : Nat) (cs : List SegL)
    (hcs : cs ≠ []) (hfuel : cs.length ≤ fuel)
    (hgood : ∀ sg ∈ cs, GoodSeg sg ∧ sg.2.2 ≠ []) :
    checkSRTGo fuel k (specBlocks k cs) = true := by
  induction cs generalizing fuel k with
  | nil => exact absurd rfl hcs
  | cons sg rest ih =>
    cases fuel with
    | zero => simp at hfuel
    | succ f =>
      rw [show specBlocks k (sg :: rest) = blockChars k sg ++ specBlocks (k + 1) rest from rfl]
      unfold checkSRTGo
      obtain ⟨hg, hne⟩ := hgood sg (List.mem_cons_self ..)
      rw [blockAt_blockChars k _ hg hne]
      cases rest with
      | nil => rfl
      | cons sg2 rest2 =>
        cases hsp : specBlocks (k + 1) (sg2 :: rest2) with
        | nil => exact absurd hsp (specBlocks_cons_ne_nil (k + 1) sg2 rest2)
        | cons a b =>
          show checkSRTGo f (k + 1) (a :: b) = true
          rw [← hsp]
          refine ih f (k + 1) (by simp) ?_ (fun x hx => hgood x (List.mem_cons_of_mem _ hx))
          have := hfuel
          simp only [List.length_cons] at this ⊢
          omega

theorem checkSRT_mk (X : List Char) :
    checkSRT (String.mk X) = (!X.isEmpty && checkSRTGo (X.length + 1) 1 X) := rfl

/-! ## Every cue produced by `parse_transcription` is well-shaped -/

theorem bind_ok_elim {α β : Type} {x : Except Unit α} {f : α → Except Unit β} {b : β}
    (h : x >>= f = .ok b) : ∃ a, x = .ok a ∧ f a = .ok b := by
  cases x with
  | error e =>
    rw [except_bind_error] at h
    exact absurd h (by simp)
  | ok a => exact ⟨a, rfl, h⟩

theorem filterMap_good {α : Type} {l : List α} {f : α → Option SegL}
    (hf : ∀ x ∈ l, ∀ sg, f x = some sg → GoodSeg sg) :
    ∀ sg ∈ l.filterMap f, GoodSeg sg := by
  intro sg hsg
  rw [List.mem_filterMap] at hsg
  obtain ⟨x, hx, hfx⟩ := hsg
  exact hf x hx sg hfx

theorem tsLineLoop_inv {ct? : Option (List Char)} {ctext : List Char}
    {lines : List (List Char)} {segs : List SegL}
    (hct : ∀ m, ct? = some m → canonTs m = true)
    (hctext : ∀ c ∈ ctext, c ≠ '\n')
    (hlines : ∀ p ∈ lines, '\n' ∉ p)
    (h : tsLineLoop ct? ctext lines = .ok segs) :
    ∀ sg ∈ segs, GoodSeg sg := by
  induction lines generalizing ct? ctext segs with
  | nil =>
    cases ct? with
    | none =>
      have hs : segs = [] := by
        rw [show tsLineLoop none ctext [] = Except.ok [] from rfl] at h
        exact (Except.ok.inj h).symm
      rw [hs]
      intro sg hsg
      simp at hsg
    | some ct =>
      rw [show tsLineLoop (some ct) ctext [] =
          (if !ctext.isEmpty then
            (addSecondsL ct 10) >>= fun e => pure [(ct, e, pyStripL ctext)]
          else pure []) from rfl] at h
      split at h
      · obtain ⟨e, he, h⟩ := bind_ok_elim h
        rw [except_pure_eq] at h
        have hs : segs = [(ct, e, pyStripL ctext)] := (Except.ok.inj h).symm
        rw [hs]
        intro sg hsg
        rw [List.mem_singleton] at hsg
        subst hsg
        obtain ⟨hce, _⟩ := addSecondsL_ok_facts he
        exact ⟨hct ct rfl, hce,
          noNl2_of_no_nl (fun c hc => hctext c (pyStripL_subset hc)), pyStripL_idem ctext⟩
      · rw [except_pure_eq] at h
        have hs : segs = [] := (Except.ok.inj h).symm
        rw [hs]
        intro sg hsg
        simp at hsg
  | cons ln rest ih =>
    cases ct? with
    | none =>
      rw [show tsLineLoop none ctext (ln :: rest) =
        (match searchTs ln with
         | some (m, after) =>
           (pure ([] : List SegL)) >>= fun flushed =>
           (tsLineLoop (some m) (pyStripL after) rest) >>= fun rst =>
           pure (flushed ++ rst)
         | none => tsLineLoop none ctext rest) from rfl] at h
      cases hsrch : searchTs ln with
      | none =>
        rw [hsrch] at h
        exact ih hct hctext (fun p hp => hlines p (List.mem_cons_of_mem _ hp)) h
      | some pr =>
        obtain ⟨m, after⟩ := pr
        rw [hsrch] at h
        dsimp only at h
        rw [except_pure_bind] at h
        obtain ⟨hcm, _, pre, hpre⟩ := searchTs_decomp hsrch
        obtain ⟨rst, hrst, h⟩ := bind_ok_elim h
        rw [except_pure_eq] at h
        have hs : segs = [] ++ rst := (Except.ok.inj h).symm
        rw [List.nil_append] at hs
        rw [hs]
        refine ih (fun m' hm' => ?_) ?_ (fun p hp => hlines p (List.mem_cons_of_mem _ hp)) hrst
        · rw [Option.some.injEq] at hm'
          rw [← hm']
          exact hcm
        · intro c hc heq
          subst heq
          refine hlines ln (List.mem_cons_self ..) ?_
          rw [hpre]
          exact List.mem_append_right _ (List.mem_append_right _ (pyStripL_subset hc))
    | some ct =>
      rw [tsLineLoop.eq_3] at h
      cases hsrch : searchTs ln with
      | none =>
        rw [hsrch] at h
        dsimp only at h
        refine ih hct ?_ (fun p hp => hlines p (List.mem_cons_of_mem _ hp)) h
        intro c hc
        rw [List.mem_append] at hc
        rcases hc with hc | hc
        · exact hctext c hc
        · rw [List.mem_cons] at hc
          rcases hc with rfl | hc
          · decide
          · exact fun heq => hlines ln (List.mem_cons_self ..) (heq ▸ pyStripL_subset hc)
      | some pr =>
        obtain ⟨m, after⟩ := pr
        rw [hsrch] at h
        dsimp only at h
        obtain ⟨hcm, _, pre, hpre⟩ := searchTs_decomp hsrch
        have hgr : ∀ rst, tsLineLoop (some m) (pyStripL after) rest = .ok rst →
            ∀ sg ∈ rst, GoodSeg sg := by
          intro rst hrst
          refine ih (fun m' hm' => ?_) ?_ (fun p hp => hlines p (List.mem_cons_of_mem _ hp)) hrst
          · rw [Option.some.injEq] at hm'
            rw [← hm']
            exact hcm
          · intro c hc heq
            subst heq
            refine hlines ln (List.mem_cons_self ..) ?_
            rw [hpre]
            exact List.mem_append_right _ (List.mem_append_right _ (pyStripL_subset hc))
        have htext : noNl2 (pyStripL ctext) = true ∧ pyStripL (pyStripL ctext) = pyStripL ctext :=
          ⟨noNl2_of_no_nl (fun c hc => hctext c (pyStripL_subset hc)), pyStripL_idem ctext⟩
        split at h
        · split at h
          · rw [except_pure_bind] at h
            obtain ⟨rst, hrst, h⟩ := bind_ok_elim h
            rw [except_pure_eq] at h
            have hs : segs = [(ct, m, pyStripL ctext)] ++ rst := (Except.ok.inj h).symm
            rw [hs]
            intro sg hsg
            rcases List.mem_append.mp hsg with hsg | hsg
            · rw [List.mem_singleton] at hsg
              subst hsg
              exact ⟨hct ct rfl, hcm, htext.1, htext.2⟩
            · exact hgr rst hrst sg hsg
          · obtain ⟨e, he, h⟩ := bind_ok_elim h
            rw [except_pure_bind] at h
            obtain ⟨rst, hrst, h⟩ := bind_ok_elim h
            rw [except_pure_eq] at h
            obtain ⟨hce, _⟩ := addSecondsL_ok_facts he
            have hs : segs = [(ct, e, pyStripL ctext)] ++ rst := (Except.ok.inj h).symm
            rw [hs]
            intro sg hsg
            rcases List.mem_append.mp hsg with hsg | hsg
            · rw [List.mem_singleton] at hsg
              subst hsg
              exact ⟨hct ct rfl, hce, htext.1, htext.2⟩
            · exact hgr rst hrst sg hsg
        · rw [except_pure_bind] at h
          obtain ⟨rst, hrst, h⟩ := bind_ok_elim h
          rw [except_pure_eq] at h
          have hs : segs = [] ++ rst := (Except.ok.inj h).symm
          rw [List.nil_append] at hs
          rw [hs]
          exact hgr rst hrst

theorem fallbackBuild_good {cur : List Char} {ls : List (List Char)} {segs : List SegL}
    (hcur : canonTs cur = true)
    (hls : ∀ p ∈ ls, noNl2 p = true ∧ pyStripL p = p)
    (h : fallbackBuild cur ls = .ok segs) :
    ∀ sg ∈ segs, GoodSeg sg := by
  induction ls generalizing cur segs with
  | nil =>
    have hs : segs = [] := by
      rw [show fallbackBuild cur [] = Except.ok [] from rfl] at h
      exact (Except.ok.inj h).symm
    rw [hs]
    intro sg hsg
    simp at hsg
  | cons ln ls ih =>
    rw [show fallbackBuild cur (ln :: ls) =
        (addSecondsL cur 10) >>= fun e =>
          (fallbackBuild e ls) >>= fun rest => pure ((cur, e, ln) :: rest) from rfl] at h
    obtain ⟨e, he, h⟩ := bind_ok_elim h
    obtain ⟨rest, hrest, h⟩ := bind_ok_elim h
    rw [except_pure_eq] at h
    have hs : segs = (cur, e, ln) :: rest := (Except.ok.inj h).symm
    obtain ⟨hce, _⟩ := addSecondsL_ok_facts he
    rw [hs]
    intro sg hsg
    rcases List.mem_cons.mp hsg with rfl | hmem
    · obtain ⟨hn1, hn2⟩ := hls ln (List.mem_cons_self ..)
      exact ⟨hcur, hce, hn1, hn2⟩
    · exact ih hce (fun p hp => hls p (List.mem_cons_of_mem _ hp)) hrest sg hmem

theorem parseTail_good {t : List Char} {segs0 segs : List SegL}
    (hnl : noNl2 t = true)
    (hg0 : ∀ sg ∈ segs0, GoodSeg sg)
    (h : (if (segs0.isEmpty && !(pyStripL t).isEmpty) = true then
            (fallbackBuild zeroTs
              (List.filter (fun x => !x.isEmpty) (List.map pyStripL (splitNl (pyStripL t))))) >>=
              fun built =>
                (pure (if built.isEmpty = true then [(zeroTs, tenTs, pyStripL t)] else built) :
                    Except Unit (List SegL)) >>=
                  fun y => pure (if y.isEmpty = true then [defaultSeg] else y)
          else (pure segs0 : Except Unit (List SegL)) >>=
              fun y => pure (if y.isEmpty = true then [defaultSeg] else y)) = .ok segs) :
    ∀ sg ∈ segs, GoodSeg sg := by
  split at h
  · obtain ⟨built, hb, h⟩ := bind_ok_elim h
    rw [except_pure_bind, except_pure_eq] at h
    have hs : segs = _ := (Except.ok.inj h).symm
    rw [hs]
    have hbg : ∀ sg ∈ built, GoodSeg sg := by
      refine fallbackBuild_good (by decide) ?_ hb
      intro p hp
      rw [List.mem_filter] at hp
      obtain ⟨hp1, _⟩ := hp
      rw [List.mem_map] at hp1
      obtain ⟨q, hq, hpq⟩ := hp1
      rw [← hpq]
      exact ⟨noNl2_of_no_nl
          (fun c hcc heq => splitNl_no_nl _ q hq (heq ▸ pyStripL_subset hcc)),
        pyStripL_idem q⟩
    split
    · intro sg hsg
      rw [show (if [(zeroTs, tenTs, pyStripL t)].isEmpty = true then [defaultSeg]
          else [(zeroTs, tenTs, pyStripL t)]) = [(zeroTs, tenTs, pyStripL t)] from rfl,
        List.mem_singleton] at hsg
      subst hsg
      exact ⟨(by decide : canonTs zeroTs = true), (by decide : canonTs tenTs = true),
        noNl2_infix ( pyStripL_infix t) hnl, pyStripL_idem t⟩
    · exact hbg
  · rw [except_pure_bind, except_pure_eq] at h
    have hs : segs = _ := (Except.ok.inj h).symm
    rw [hs]
    split
    · intro sg hsg
      rw [List.mem_singleton] at hsg
      exact hsg ▸ goodSeg_default
    · exact hg0

theorem parse_inv {raw : List Char} {segs : List SegL}
    (h : parseTranscriptionL raw = .ok segs) :
    ∀ sg ∈ segs, GoodSeg sg := by
  unfold parseTranscriptionL at h
  cases hc : cleanL raw with
  | error e =>
    rw [hc, except_bind_error] at h
    exact absurd h (by simp)
  | ok t =>
    rw [hc, except_bind_ok] at h
    have hnl : noNl2 t = true := clean_noNl2 hc
    dsimp only at h
    split at h
    · rw [except_pure_eq] at h
      have hs : segs = [defaultSeg] := (Except.ok.inj h).symm
      rw [hs]
      intro sg hsg
      rw [List.mem_singleton] at hsg
      exact hsg ▸ goodSeg_default
    · split at h
      · rw [except_pure_eq] at h
        have hs : segs = parseSrtFormatL t := (Except.ok.inj h).symm
        rw [hs]
        exact parseSrtFormat_inv hnl
      · split at h
        · rw [except_pure_bind] at h
          refine parseTail_good hnl ?_ h
          refine filterMap_good ?_
          intro x hx sg hsg
          split at hsg
          · rw [Option.some.injEq] at hsg
            obtain ⟨hc1, hc2⟩ := findRanges_inv _ _ _ x hx
            rw [← hsg]
            exact ⟨hc1, hc2, ( goodText_of_infix ( sliceL_infix t _ _) hnl).1,
              ( goodText_of_infix ( sliceL_infix t _ _) hnl).2⟩
          · exact absurd hsg (by simp)
        · obtain ⟨segs0, h0, h⟩ := bind_ok_elim h
          refine parseTail_good hnl ?_ h
          exact tsLineLoop_inv (fun m hm => Option.noConfusion hm)
            (fun c hc => absurd hc (List.not_mem_nil c)) (splitNl_no_nl _) h0

/-- C1 (confirmed): for every input string — empty, whitespace-only or
arbitrary garbage — `convert_to_srt` never propagates an exception and
returns a non-empty string matching the canonical SRT block grammar
(blocks numbered 1..K, `HH:MM:SS,mmm --> HH:MM:SS,mmm` range line,
non-empty caption, one terminating blank line); any internal exception of
the parsing pipeline is absorbed and replaced by the fixed one-cue
conversion-error placeholder SRT string. -/
theorem c1_convert_total_valid (raw : String) :
    convert_to_srt raw ≠ "" ∧ checkSRT (convert_to_srt raw) = true ∧
      ∀ e, parseTranscriptionL raw.data = .error e → convert_to_srt raw = errSrt := by
  cases hp : parseTranscriptionL raw.data with
  | error e =>
    have hce : convert_to_srt raw = errSrt := by
      unfold convert_to_srt
      rw [hp]
    rw [hce]
    exact ⟨by decide, by decide, fun _ _ => rfl⟩
  | ok segs =>
    have hne : extractRealL segs ≠ [] := extractRealL_ne_nil segs
    have houtne : specBlocks 1 (extractRealL segs) ≠ [] := by
      cases hcs : extractRealL segs with
      | nil => exact absurd hcs hne
      | cons sg rest => exact specBlocks_cons_ne_nil 1 sg rest
    have hbne : (specBlocks 1 (extractRealL segs)).isEmpty = false := by
      cases hsp : specBlocks 1 (extractRealL segs) with
      | nil => exact absurd hsp houtne
      | cons a b => rfl
    have hc : convert_to_srt raw = String.mk (specBlocks 1 (extractRealL segs)) := by
      unfold convert_to_srt
      rw [hp]
      dsimp only
      rw [renderL_spec]
      rw [if_neg (by rw [hbne]; exact Bool.false_ne_true)]
    have h3 : ∀ e, (Except.ok segs : Except Unit (List SegL)) = .error e →
        convert_to_srt raw = errSrt := by
      intro e hcontra
      exact absurd hcontra (by simp)
    have h1 : convert_to_srt raw ≠ "" := by
      rw [hc]
      intro hstr
      exact houtne (congrArg String.data hstr)
    have h2 : checkSRT (convert_to_srt raw) = true := by
      rw [hc, checkSRT_mk, Bool.and_eq_true]
      constructor
      · rw [hbne]
        rfl
      · cases hcs : extractRealL segs with
        | nil => exact absurd hcs hne
        | cons sg rest =>
          refine checkSRTGo_spec _ 1 (sg :: rest) (by simp) ?_ ?_
          · have hlen := specBlocks_len_ge 1 (sg :: rest)
            omega
          · intro x hx
            rw [← hcs] at hx
            exact ⟨extractRealL_good (parse_inv hp) x hx, extractRealL_text segs x hx⟩
    exact ⟨h1, h2, h3⟩

/-- Witness for C1 at the empty input string. -/
theorem c1_convert_total_valid_witness :
    convert_to_srt "" ≠ "" ∧ checkSRT (convert_to_srt "") = true ∧
      ∀ e, parseTranscriptionL "".data = .error e → convert_to_srt "" = errSrt :=
  c1_convert_total_valid ""
